import Mathlib

/-!
Shallow embedding of `src/genetic/salesman/salesman.py` (a genetic-algorithm
solver for the Euclidean TSP) together with proofs about it.

Modelling conventions:
* Python floats are modelled by real numbers (`ℝ`); `float('inf')` and
  comparisons against it are modelled by `EReal`.
* Routes are `List ℕ` of city indices; `cities` is a `List (ℝ × ℝ)`.
  Python's `cities[i]` / `route[i]` indexing is modelled by `List.getD`;
  every use in the algorithm has the index in range.
* The shared pseudo-random source (`random.shuffle`, `random.sample`,
  `random.random`) is modelled by an explicit oracle `RandModel` whose
  outputs are constrained by `RandModel.Valid` to exactly the guarantees of
  the Python primitives (a shuffle is a permutation, `sample(pop, k)` with
  `k ≤ len(pop)` returns `k` distinct elements of `pop`, `random.random()`
  lies in `[0, 1)`, `sorted(sample(range(n), 2))` gives two distinct sorted
  indices below `n`).
* Exceptions raised by `random.sample(seq, k)` when `k > len(seq)` and by
  `seq[0]` on an empty sequence are modelled with `Except GAErr`.
* The unbounded `while None in child` loop of `order_crossover` is modelled
  with fuel `size`; running out of fuel (result `none`) coincides exactly
  with divergence of the Python loop, since each pass over `parent2` can
  only place a value on its first visit.
-/

namespace Salesman

open List

/-- `distance(city1, city2)`: Euclidean distance (salesman.py lines 26-30). -/
noncomputable def distance (city1 city2 : ℝ × ℝ) : ℝ :=
  Real.sqrt ((city1.1 - city2.1) ^ 2 + (city1.2 - city2.2) ^ 2)

/-- `total_distance(route, cities)`: total cyclic route length
(salesman.py lines 32-41). -/
noncomputable def total_distance (route : List ℕ) (cities : List (ℝ × ℝ)) : ℝ :=
  ∑ i ∈ Finset.range route.length,
    distance (cities.getD (route.getD i 0) (0, 0))
      (cities.getD (route.getD ((i + 1) % route.length) 0) (0, 0))

/-- `fitness(route, cities) = 1/d if d > 0 else float('inf')`
(salesman.py lines 43-48). -/
noncomputable def fitness (route : List ℕ) (cities : List (ℝ × ℝ)) : EReal :=
  if 0 < total_distance route cities
  then ((1 / total_distance route cities : ℝ) : EReal)
  else ⊤

/-- The sort key used by `population.sort(key=...)` and `tournament.sort(key=...)`:
compare routes by `total_distance`. -/
def routeLe (cities : List (ℝ × ℝ)) (a b : List ℕ) : Prop :=
  total_distance a cities ≤ total_distance b cities

instance routeLe_total (cities : List (ℝ × ℝ)) : IsTotal (List ℕ) (routeLe cities) :=
  ⟨fun a b => le_total _ _⟩

instance routeLe_trans (cities : List (ℝ × ℝ)) : IsTrans (List ℕ) (routeLe cities) :=
  ⟨fun _ _ _ => le_trans⟩

/-- Python's `list.sort(key=total_distance)` is a stable sort by the key; a
stable sort by a total transitive relation is unique, so we model it with
insertion sort over `routeLe`. -/
noncomputable def sortPop (cities : List (ℝ × ℝ)) (pop : List (List ℕ)) : List (List ℕ) :=
  @List.insertionSort _ (routeLe cities) (Classical.decRel _) pop

theorem sortPop_perm (cities : List (ℝ × ℝ)) (pop : List (List ℕ)) :
    sortPop cities pop ~ pop :=
  @List.perm_insertionSort _ (routeLe cities) (Classical.decRel _) pop

theorem sortPop_sorted (cities : List (ℝ × ℝ)) (pop : List (List ℕ)) :
    List.Sorted (routeLe cities) (sortPop cities pop) :=
  @List.sorted_insertionSort _ (routeLe cities) (Classical.decRel _) _ _ pop

/-- `swap_mutation(individual)` after the two random indices `a, b` have been
drawn (salesman.py lines 100-106): `individual[a], individual[b] =
individual[b], individual[a]`. -/
def swap_mutation (individual : List ℕ) (a b : ℕ) : List ℕ :=
  (individual.set a (individual.getD b 0)).set b (individual.getD a 0)

/-! ### Order crossover (salesman.py lines 74-97)

`order_crossover(parent1, parent2)` copies `parent1[start:end+1]` into the
child and then runs

    current_index = (end + 1) % size
    parent2_index = (end + 1) % size
    while None in child:
        if parent2[parent2_index] not in child:
            child[current_index] = parent2[parent2_index]
            current_index = (current_index + 1) % size
        parent2_index = (parent2_index + 1) % size

The partially built child is a `List (Option ℕ)`; the loop is `oxLoop`,
fueled with `size` iterations (each iteration advances `parent2_index`; a
value of `parent2` that is skipped on its first visit is forever in the
child, so a loop that has not finished after one full pass never finishes). -/

/-- The fill loop of `order_crossover`.  `none` = the Python loop diverges. -/
def oxLoop (p2 : List ℕ) (size : ℕ) :
    ℕ → ℕ → ℕ → List (Option ℕ) → Option (List (Option ℕ))
  | 0, _, _, child => if none ∈ child then none else some child
  | fuel + 1, ci, pi, child =>
    if none ∈ child then
      if some (p2.getD pi 0) ∈ child then
        oxLoop p2 size fuel ci ((pi + 1) % size) child
      else
        oxLoop p2 size fuel ((ci + 1) % size) ((pi + 1) % size)
          (child.set ci (some (p2.getD pi 0)))
    else some child

/-- The child right after the slice assignment
`child[start:end+1] = parent1[start:end+1]` (expressed pointwise over
`range size`, which agrees with Python's clamping slice semantics). -/
def oxInit (p1 : List ℕ) (start stop : ℕ) : List (Option ℕ) :=
  (List.range p1.length).map
    (fun i => if start ≤ i ∧ i ≤ stop then some (p1.getD i 0) else none)

/-- `order_crossover` once the two sorted cut points `start ≤ stop` have been
drawn (`start, end = sorted(random.sample(range(size), 2))`). -/
def order_crossover (p1 p2 : List ℕ) (start stop : ℕ) : Option (List ℕ) :=
  let size := p1.length
  match oxLoop p2 size size ((stop + 1) % size) ((stop + 1) % size)
      (oxInit p1 start stop) with
  | none => none
  | some c => some (c.map (fun o => o.getD 0))

/-- The block of `parent1` copied verbatim into the child:
`parent1[start:end+1]`. -/
def oxBlock (p1 : List ℕ) (start stop : ℕ) : List ℕ :=
  (p1.drop start).take (stop + 1 - start)

/-- The values the fill loop takes from `parent2`: its circular order
starting at `(end+1) % size`, skipping the cities already in the child. -/
def oxFillVals (p2 : List ℕ) (block : List ℕ) (s : ℕ) : List ℕ :=
  (p2.rotate s).filter (fun v => decide (v ∉ block))

/-- Rotation-free restatement of the fill loop: `vs` are the values of
`parent2` still to be scanned in the current pass, `ps` the child positions
still to be filled, in circular visiting order. -/
def absLoop : List ℕ → List ℕ → List (Option ℕ) → Option (List (Option ℕ))
  | [], _, child => if none ∈ child then none else some child
  | v :: vs, ps, child =>
    if none ∈ child then
      if some v ∈ child then absLoop vs ps child
      else
        match ps with
        | [] => none
        | p :: ps' => absLoop vs ps' (child.set p (some v))
    else some child

/-- Write the values `vs` (wrapped in `some`) at the positions `ps`, in order. -/
def setMany : List (Option ℕ) → List ℕ → List ℕ → List (Option ℕ)
  | child, _, [] => child
  | child, [], _ :: _ => child
  | child, p :: ps, v :: vs => setMany (child.set p (some v)) ps vs

/-! ### Auxiliary list lemmas for the crossover proof -/

theorem getD_eq_getElem {α : Type} (l : List α) (d : α) {i : ℕ} (h : i < l.length) :
    l.getD i d = l[i] := by
  simp [List.getD_eq_getElem?_getD, List.getElem?_eq_getElem h]

/-- Scanning one more element of the circular scan of `l` that starts at
position `i`: the head is `l[i]` and the remainder is the scan starting at
`(i+1) % l.length`. -/
theorem rotate_take_succ {α : Type} (l : List α) (d : α) (i f : ℕ)
    (hi : i < l.length) (hf : f ≤ l.length - 1) :
    (l.rotate i).take (f + 1)
      = l.getD i d :: ((l.rotate ((i + 1) % l.length)).take f) := by
  have hrot : l.rotate i = l[i] :: (l.drop (i + 1) ++ l.take i) := by
    rw [List.rotate_eq_drop_append_take (le_of_lt hi)]
    rw [List.drop_eq_getElem_cons hi]
    rw [List.cons_append]
  rw [hrot, List.take_succ_cons, getD_eq_getElem l d hi]
  congr 1
  rcases Nat.lt_or_ge (i + 1) l.length with hlt | hge
  · rw [Nat.mod_eq_of_lt hlt, List.rotate_eq_drop_append_take (le_of_lt hlt)]
    rw [List.take_append_eq_append_take, List.take_append_eq_append_take]
    congr 1
    rw [List.take_take, List.take_take]
    congr 1
    have hd : (l.drop (i + 1)).length = l.length - (i + 1) := List.length_drop _ _
    rw [hd]
    omega
  · have hieq : i + 1 = l.length := by omega
    have hmod : (i + 1) % l.length = 0 := by rw [hieq, Nat.mod_self]
    rw [hmod, List.rotate_zero, hieq, List.drop_length, List.nil_append,
      List.take_take]
    congr 1
    omega

/-- The fueled loop coincides with the rotation-free loop `absLoop` run on the
circular scans of `parent2` (from `pi`) and of the positions (from `ci`). -/
theorem oxLoop_eq_absLoop (p2 : List ℕ) (size : ℕ) (hp2 : p2.length = size) :
    ∀ fuel k ci pi child, fuel ≤ k → k ≤ size → ci < size → pi < size →
    oxLoop p2 size fuel ci pi child
      = absLoop ((p2.rotate pi).take fuel) (((List.range size).rotate ci).take k) child := by
  intro fuel
  induction fuel with
  | zero =>
    intro k ci pi child _ _ _ _
    simp [oxLoop, absLoop]
  | succ fuel ih =>
    intro k ci pi child hfk hks hci hpi
    have hsz : 0 < size := Nat.lt_of_le_of_lt (Nat.zero_le _) hpi
    have hvs : (p2.rotate pi).take (fuel + 1)
        = p2.getD pi 0 :: ((p2.rotate ((pi + 1) % size)).take fuel) := by
      have := rotate_take_succ p2 0 pi fuel (by omega) (by omega)
      rwa [hp2] at this
    rw [hvs]
    show oxLoop p2 size (fuel + 1) ci pi child = _
    rw [oxLoop]
    simp only [absLoop]
    by_cases hnone : none ∈ child
    · simp only [if_pos hnone]
      by_cases hv : some (p2.getD pi 0) ∈ child
      · simp only [if_pos hv]
        exact ih k ci ((pi + 1) % size) child (by omega) hks hci (Nat.mod_lt _ hsz)
      · simp only [if_neg hv]
        have hk1 : k = (k - 1) + 1 := by omega
        have hps : ((List.range size).rotate ci).take k
            = ci :: (((List.range size).rotate ((ci + 1) % size)).take (k - 1)) := by
          rw [hk1]
          have := rotate_take_succ (List.range size) 0 ci (k - 1)
            (by rw [List.length_range]; exact hci) (by rw [List.length_range]; omega)
          rw [List.length_range] at this
          rw [this]
          congr 1
          exact getD_eq_getElem _ 0 (by rw [List.length_range]; exact hci) ▸ (by
            simp)
        rw [hps]
        exact ih (k - 1) ((ci + 1) % size) ((pi + 1) % size) (child.set ci (some (p2.getD pi 0)))
          (by omega) (by omega) (Nat.mod_lt _ hsz) (Nat.mod_lt _ hsz)
    · simp [if_neg hnone]

theorem mem_set_of_mem_of_ne {α : Type} {l : List α} {a b : α} {p : ℕ}
    (hmem : a ∈ l) (hp : p < l.length) (hne : l[p] ≠ a) : a ∈ l.set p b := by
  rw [List.mem_iff_getElem?] at hmem ⊢
  obtain ⟨q, hq⟩ := hmem
  refine ⟨q, ?_⟩
  have hpq : p ≠ q := by
    rintro rfl
    rw [List.getElem?_eq_getElem hp] at hq
    exact hne (Option.some_injective _ hq)
  rw [List.getElem?_set_ne hpq]
  exact hq

theorem count_set_none {l : List (Option ℕ)} {p : ℕ} {v : ℕ}
    (hp : p < l.length) (hnone : l[p] = none) :
    (l.set p (some v)).count none + 1 = l.count none := by
  rw [List.set_eq_take_append_cons_drop, if_pos hp]
  conv_rhs => rw [← List.take_append_drop p l, List.drop_eq_getElem_cons hp, hnone]
  simp [List.count_append, List.count_cons]
  omega

theorem setMany_nil (child : List (Option ℕ)) (ps : List ℕ) :
    setMany child ps [] = child := by
  cases ps <;> rfl

/-- Correctness of the rotation-free fill loop.  `B` is the list of values the
child already holds (the block copied from `parent1`); provided the scanned
values `vs` are distinct, a value is in the evolving child iff it is in `B`
or has already been placed, the pending positions `ps` are distinct and start
with exactly the `none` cells of the child, the loop terminates and writes
the values of `vs` outside `B` at the positions `ps`, in order. -/
theorem absLoop_spec (B : List ℕ) :
    ∀ (vs ps : List ℕ) (child : List (Option ℕ)),
    vs.Nodup →
    (∀ v ∈ vs, (some v ∈ child ↔ v ∈ B)) →
    ps.Nodup →
    child.count none = (vs.filter (fun v => decide (v ∉ B))).length →
    child.count none ≤ ps.length →
    (∀ p ∈ ps.take (child.count none), p < child.length ∧ child.getD p (some 0) = none) →
    absLoop vs ps child = some (setMany child ps (vs.filter (fun v => decide (v ∉ B)))) := by
  intro vs
  induction vs with
  | nil =>
    intro ps child _ _ _ hcount _ _
    have hnone : none ∉ child := by
      rw [← List.count_eq_zero]
      simpa using hcount
    simp only [absLoop, List.filter_nil, if_neg hnone]
    rw [setMany_nil]
  | cons v vs ih =>
    intro ps child hnd hmem hpsnd hcount hle hpos
    by_cases hnone : none ∈ child
    · by_cases hv : some v ∈ child
      · -- skipped value: `v` is already in the child, i.e. in `B`
        have hvB : v ∈ B := (hmem v (List.mem_cons_self v vs)).mp hv
        have hfil : (v :: vs).filter (fun v => decide (v ∉ B))
            = vs.filter (fun v => decide (v ∉ B)) := by
          simp [List.filter_cons, hvB]
        simp only [absLoop, if_pos hnone, if_pos hv]
        rw [hfil]
        exact ih ps child (List.nodup_cons.mp hnd).2
          (fun w hw => hmem w (List.mem_cons_of_mem v hw)) hpsnd
          (hfil ▸ hcount) hle hpos
      · -- placed value: `v` goes to the next pending position
        have hvB : v ∉ B := fun h => hv ((hmem v (List.mem_cons_self v vs)).mpr h)
        have hfil : (v :: vs).filter (fun v => decide (v ∉ B))
            = v :: vs.filter (fun v => decide (v ∉ B)) := by
          simp [List.filter_cons, hvB]
        have hcpos : 0 < child.count none := List.count_pos_iff.mpr hnone
        cases ps with
        | nil => simp at hle; omega
        | cons p ps' =>
          have hptake : p ∈ (p :: ps').take (child.count none) := by
            have : (p :: ps').take (child.count none)
                = p :: ps'.take (child.count none - 1) := by
              have h1 : child.count none = (child.count none - 1) + 1 := by omega
              conv_lhs => rw [h1]
              rw [List.take_succ_cons]
            rw [this]
            exact List.mem_cons_self _ _
          obtain ⟨hp, hpnone'⟩ := hpos p hptake
          have hpnone : child[p] = none := by
            rw [← getD_eq_getElem child (some 0) hp]
            exact hpnone'
          have hlen' : (child.set p (some v)).length = child.length := by simp
          have hcount' : (child.set p (some v)).count none + 1 = child.count none :=
            count_set_none hp hpnone
          have hpnotps' : p ∉ ps' := (List.nodup_cons.mp hpsnd).1
          have hmem' : ∀ w ∈ vs, (some w ∈ child.set p (some v) ↔ w ∈ B) := by
            intro w hw
            constructor
            · intro hws
              rcases List.mem_or_eq_of_mem_set hws with h | h
              · exact (hmem w (List.mem_cons_of_mem v hw)).mp h
              · exfalso
                have : w = v := by injection h
                exact (List.nodup_cons.mp hnd).1 (this ▸ hw)
            · intro hwB
              have : some w ∈ child := (hmem w (List.mem_cons_of_mem v hw)).mpr hwB
              exact mem_set_of_mem_of_ne this hp (by rw [hpnone]; simp)
          have hpos' : ∀ q ∈ ps'.take ((child.set p (some v)).count none),
              q < (child.set p (some v)).length ∧
                (child.set p (some v)).getD q (some 0) = none := by
            intro q hq
            have hq2 : q ∈ ps'.take (child.count none - 1) := by
              have : (child.set p (some v)).count none = child.count none - 1 := by omega
              rwa [this] at hq
            have hqps : q ∈ (p :: ps').take (child.count none) := by
              have h1 : child.count none = (child.count none - 1) + 1 := by omega
              rw [h1, List.take_succ_cons]
              exact List.mem_cons_of_mem p hq2
            obtain ⟨hqlt, hqnone⟩ := hpos q hqps
            have hqp : q ≠ p := by
              rintro rfl
              exact hpnotps' (List.mem_of_mem_take hq2)
            refine ⟨by simpa using hqlt, ?_⟩
            rw [getD_eq_getElem _ (some 0) (by simpa using hqlt)]
            rw [List.getElem_set_ne (fun h => hqp h.symm)]
            rw [← getD_eq_getElem child (some 0) hqlt]
            exact hqnone
          simp only [absLoop, if_pos hnone, if_neg hv]
          rw [hfil]
          show absLoop vs ps' (child.set p (some v))
            = some (setMany (child.set p (some v)) ps'
              (vs.filter (fun v => decide (v ∉ B))))
          exact ih ps' (child.set p (some v)) (List.nodup_cons.mp hnd).2 hmem'
            (List.nodup_cons.mp hpsnd).2
            (by rw [hfil, List.length_cons] at hcount; omega)
            (by rw [List.length_cons] at hle; omega) hpos'
    · -- no `none` left: the loop stops, nothing to place
      have hc0 : child.count none = 0 := List.count_eq_zero.mpr hnone
      have : (v :: vs).filter (fun v => decide (v ∉ B)) = [] := by
        rw [hc0] at hcount
        exact (List.length_eq_zero.mp hcount.symm)
      rw [this]
      simp only [absLoop, if_neg hnone]
      rw [setMany_nil]

theorem setMany_append (ps1 : List ℕ) :
    ∀ (child : List (Option ℕ)) (ps2 vs : List ℕ),
    setMany child (ps1 ++ ps2) vs
      = setMany (setMany child ps1 (vs.take ps1.length)) ps2 (vs.drop ps1.length) := by
  induction ps1 with
  | nil =>
    intro child ps2 vs
    simp [setMany_nil]
  | cons p ps1 ih =>
    intro child ps2 vs
    cases vs with
    | nil => simp [setMany_nil]
    | cons v vs =>
      show setMany (child.set p (some v)) (ps1 ++ ps2) vs = _
      rw [ih]
      simp only [List.length_cons, List.take_succ_cons, List.drop_succ_cons]
      rfl

theorem setMany_range' :
    ∀ (vs : List ℕ) (child : List (Option ℕ)) (i : ℕ), i + vs.length ≤ child.length →
    setMany child (List.range' i vs.length) vs
      = child.take i ++ vs.map some ++ child.drop (i + vs.length) := by
  intro vs
  induction vs with
  | nil =>
    intro child i h
    show child = _
    simp
  | cons v vs ih =>
    intro child i h
    have hi : i < child.length := by
      simp only [List.length_cons] at h
      omega
    rw [List.length_cons, List.range'_succ]
    show setMany (child.set i (some v)) (List.range' (i + 1) vs.length) vs = _
    rw [ih (child.set i (some v)) (i + 1)
      (by simp only [List.length_set]; simp only [List.length_cons] at h; omega)]
    have htake : (child.set i (some v)).take (i + 1) = child.take i ++ [some v] := by
      rw [List.set_eq_take_append_cons_drop, if_pos hi, List.take_append_eq_append_take,
        List.take_take]
      have h1 : min (i + 1) i = i := by omega
      have h2 : i + 1 - (child.take i).length = 1 := by
        rw [List.length_take]
        omega
      rw [h1, h2, List.take_succ_cons, List.take_zero]
    have hdrop : (child.set i (some v)).drop (i + 1 + vs.length)
        = child.drop (i + 1 + vs.length) := by
      rw [List.drop_set]
      rw [if_pos (by omega)]
    rw [htake, hdrop]
    have harith : i + (vs.length + 1) = i + 1 + vs.length := by omega
    rw [harith]
    simp

theorem setMany_take :
    ∀ (vs : List ℕ) (child : List (Option ℕ)) (ps : List ℕ),
    setMany child ps vs = setMany child (ps.take vs.length) vs := by
  intro vs
  induction vs with
  | nil => intro child ps; simp [setMany_nil]
  | cons v vs ih =>
    intro child ps
    cases ps with
    | nil => rfl
    | cons p ps =>
      rw [List.length_cons, List.take_succ_cons]
      show setMany (child.set p (some v)) ps vs = _
      exact ih _ _

theorem map_getD_range' {α : Type} (l : List α) (d : α) :
    ∀ (k i : ℕ), i + k ≤ l.length →
    (List.range' i k).map (fun j => l.getD j d) = (l.drop i).take k := by
  intro k
  induction k with
  | zero => intro i _; simp
  | succ k ih =>
    intro i h
    have hi : i < l.length := by omega
    rw [List.range'_succ, List.map_cons, ih (i + 1) (by omega),
      List.drop_eq_getElem_cons hi, List.take_succ_cons, getD_eq_getElem l d hi]

theorem oxInit_eq (p1 : List ℕ) (n start stop : ℕ) (hlen : p1.length = n)
    (hss : start ≤ stop) (hsn : stop < n) :
    oxInit p1 start stop
      = List.replicate start (none : Option ℕ)
        ++ (oxBlock p1 start stop).map some
        ++ List.replicate (n - stop - 1) none := by
  have hsplit : List.range n
      = List.range' 0 start ++ List.range' start (stop + 1 - start)
        ++ List.range' (stop + 1) (n - stop - 1) := by
    have h1 := List.range'_append_1 0 start (stop + 1 - start)
    rw [Nat.zero_add, show stop + 1 - start + start = stop + 1 from by omega] at h1
    have h2 := List.range'_append_1 0 (stop + 1) (n - stop - 1)
    rw [Nat.zero_add, show n - stop - 1 + (stop + 1) = n from by omega] at h2
    rw [List.range_eq_range', ← h2, ← h1]
  rw [oxInit, hlen, hsplit, List.map_append, List.map_append]
  congr 1
  · congr 1
    · have h : ∀ i ∈ List.range' 0 start,
          (if start ≤ i ∧ i ≤ stop then some (p1.getD i 0) else none) = (none : Option ℕ) := by
        intro i hi
        rw [List.mem_range'_1] at hi
        rw [if_neg]
        rintro ⟨h1, _⟩
        omega
      rw [List.map_congr_left h, List.map_const', List.length_range']
    · have h : ∀ i ∈ List.range' start (stop + 1 - start),
          (if start ≤ i ∧ i ≤ stop then some (p1.getD i 0) else none)
            = some (p1.getD i 0) := by
        intro i hi
        rw [List.mem_range'_1] at hi
        exact if_pos ⟨hi.1, by omega⟩
      rw [List.map_congr_left h,
        show (fun i => some (p1.getD i 0)) = (some ∘ fun i => p1.getD i 0) from rfl,
        ← List.map_map, map_getD_range' p1 0 (stop + 1 - start) start (by omega)]
      rfl
  · have h : ∀ i ∈ List.range' (stop + 1) (n - stop - 1),
        (if start ≤ i ∧ i ≤ stop then some (p1.getD i 0) else none) = (none : Option ℕ) := by
      intro i hi
      rw [List.mem_range'_1] at hi
      rw [if_neg]
      rintro ⟨_, h2⟩
      omega
    rw [List.map_congr_left h, List.map_const', List.length_range']

theorem mem_oxInit (p1 : List ℕ) (n start stop : ℕ) (hlen : p1.length = n)
    (hss : start ≤ stop) (hsn : stop < n) (v : ℕ) :
    some v ∈ oxInit p1 start stop ↔ v ∈ oxBlock p1 start stop := by
  rw [oxInit_eq p1 n start stop hlen hss hsn]
  simp [List.mem_append, List.mem_replicate]

theorem count_oxInit (p1 : List ℕ) (n start stop : ℕ) (hlen : p1.length = n)
    (hss : start ≤ stop) (hsn : stop < n) :
    (oxInit p1 start stop).count none = start + (n - stop - 1) := by
  rw [oxInit_eq p1 n start stop hlen hss hsn]
  rw [List.count_append, List.count_append]
  have h2 : ((oxBlock p1 start stop).map some).count none = 0 := by
    rw [List.count_eq_zero]
    simp
  rw [h2, List.count_replicate_self, List.count_replicate_self]
  omega

theorem oxInit_length (p1 : List ℕ) (start stop : ℕ) :
    (oxInit p1 start stop).length = p1.length := by
  simp [oxInit]

theorem oxInit_getD_none (p1 : List ℕ) (start stop p : ℕ) (hp : p < p1.length)
    (h : ¬(start ≤ p ∧ p ≤ stop)) :
    (oxInit p1 start stop).getD p (some 0) = none := by
  have hp2 : p < (oxInit p1 start stop).length := by
    rw [oxInit_length]
    exact hp
  rw [getD_eq_getElem _ _ hp2]
  simp only [oxInit, List.getElem_map, List.getElem_range]
  exact if_neg h

theorem oxBlock_length (p1 : List ℕ) (n start stop : ℕ) (hlen : p1.length = n)
    (hss : start ≤ stop) (hsn : stop < n) :
    (oxBlock p1 start stop).length = stop + 1 - start := by
  simp only [oxBlock, List.length_take, List.length_drop, hlen]
  omega

theorem oxBlock_sublist (p1 : List ℕ) (start stop : ℕ) :
    oxBlock p1 start stop <+ p1 :=
  (List.take_sublist _ _).trans (List.drop_sublist _ _)

theorem oxBlock_nodup (p1 : List ℕ) (n start stop : ℕ) (h1 : p1 ~ List.range n) :
    (oxBlock p1 start stop).Nodup :=
  (oxBlock_sublist p1 start stop).nodup (h1.nodup_iff.mpr (List.nodup_range n))

theorem oxBlock_lt (p1 : List ℕ) (n start stop : ℕ) (h1 : p1 ~ List.range n) :
    ∀ b ∈ oxBlock p1 start stop, b < n := by
  intro b hb
  have : b ∈ p1 := (oxBlock_sublist p1 start stop).subset hb
  exact List.mem_range.mp (h1.subset this)

theorem filter_range_mem_perm (bs : List ℕ) (n : ℕ) (hnd : bs.Nodup)
    (hsub : ∀ b ∈ bs, b < n) :
    (List.range n).filter (fun v => decide (v ∈ bs)) ~ bs := by
  rw [List.perm_iff_count]
  intro a
  by_cases ha : a ∈ bs
  · rw [List.count_filter (by simpa using ha)]
    rw [List.count_eq_one_of_mem (List.nodup_range n) (List.mem_range.mpr (hsub a ha))]
    rw [List.count_eq_one_of_mem hnd ha]
  · have h1 : a ∉ (List.range n).filter (fun v => decide (v ∈ bs)) := by
      simp [List.mem_filter, ha]
    rw [List.count_eq_zero_of_not_mem h1, List.count_eq_zero_of_not_mem ha]

theorem oxFillVals_perm (p2 : List ℕ) (n s : ℕ) (h2 : p2 ~ List.range n)
    (block : List ℕ) :
    oxFillVals p2 block s ~ (List.range n).filter (fun v => decide (v ∉ block)) :=
  ((List.rotate_perm p2 s).trans h2).filter _

theorem oxFillVals_length (p1 p2 : List ℕ) (n s start stop : ℕ)
    (h1 : p1 ~ List.range n) (h2 : p2 ~ List.range n)
    (hss : start ≤ stop) (hsn : stop < n) :
    (oxFillVals p2 (oxBlock p1 start stop) s).length = start + (n - stop - 1) := by
  have hlen : p1.length = n := h1.length_eq.trans (List.length_range n)
  have hperm := oxFillVals_perm p2 n s h2 (oxBlock p1 start stop)
  rw [hperm.length_eq]
  have hnot : (fun v => decide (v ∉ oxBlock p1 start stop))
      = (fun v => !decide (v ∈ oxBlock p1 start stop)) := by
    funext v
    exact decide_not
  have hap := (List.filter_append_perm
    (fun v => decide (v ∈ oxBlock p1 start stop)) (List.range n)).length_eq
  rw [List.length_append] at hap
  have hb := (filter_range_mem_perm (oxBlock p1 start stop) n
    (oxBlock_nodup p1 n start stop h1) (oxBlock_lt p1 n start stop h1)).length_eq
  rw [hnot]
  rw [List.length_range] at hap
  rw [hb, oxBlock_length p1 n start stop hlen hss hsn] at hap
  omega

theorem psTake (n start stop : ℕ) (hss : start ≤ stop) (hsn : stop < n) :
    ((List.range n).rotate ((stop + 1) % n)).take (start + (n - stop - 1))
      = List.range' (stop + 1) (n - stop - 1) ++ List.range start := by
  rcases Nat.lt_or_ge (stop + 1) n with hlt | hge
  · have hs : (stop + 1) % n = stop + 1 := Nat.mod_eq_of_lt hlt
    have hsplit : List.range n
        = List.range (stop + 1) ++ List.range' (stop + 1) (n - stop - 1) := by
      rw [List.range_eq_range', List.range_eq_range']
      have h2 := List.range'_append_1 0 (stop + 1) (n - stop - 1)
      rw [Nat.zero_add, show n - stop - 1 + (stop + 1) = n from by omega] at h2
      exact h2.symm
    have hd : (List.range n).drop (stop + 1) = List.range' (stop + 1) (n - stop - 1) := by
      rw [hsplit]
      exact List.drop_left' (by rw [List.length_range])
    have ht : (List.range n).take (stop + 1) = List.range (stop + 1) := by
      rw [hsplit]
      exact List.take_left' (by rw [List.length_range])
    rw [hs, List.rotate_eq_drop_append_take (by rw [List.length_range]; omega), hd, ht]
    set A := List.range' (stop + 1) (n - stop - 1) with hA
    have hlA : A.length = n - stop - 1 := by
      rw [hA]
      exact List.length_range' _ _ _
    rw [show start + (n - stop - 1) = A.length + start from by omega]
    rw [List.take_append]
    rw [List.take_range, show min start (stop + 1) = start from by omega]
  · have hs : (stop + 1) % n = 0 := by
      rw [show stop + 1 = n from by omega, Nat.mod_self]
    rw [hs, List.rotate_zero, show n - stop - 1 = 0 from by omega]
    rw [List.range'_zero, List.nil_append, Nat.add_zero, List.take_range,
      show min start n = start from by omega]

theorem setMany_range'_of_len (child : List (Option ℕ)) (i k : ℕ) (vs : List ℕ)
    (hk : vs.length = k) (h : i + k ≤ child.length) :
    setMany child (List.range' i k) vs = child.take i ++ vs.map some ++ child.drop (i + k) := by
  subst hk
  exact setMany_range' vs child i h

theorem map_some_strip (l : List ℕ) : (l.map some).map (fun o => o.getD 0) = l := by
  simp [Function.comp_def]

/-- Full characterisation of `order_crossover` on two parent permutations of
`{0..n-1}` with sorted cut points `start < stop < n`: the loop terminates and
the child consists of the `parent1` block at `[start..stop]` with the cities
of `parent2` (circular order from `(stop+1) % n`, skipping block cities)
wrapped circularly around it. -/
theorem order_crossover_eq (p1 p2 : List ℕ) (n start stop : ℕ)
    (h1 : p1 ~ List.range n) (h2 : p2 ~ List.range n)
    (hss : start < stop) (hsn : stop < n) :
    order_crossover p1 p2 start stop
      = some ((oxFillVals p2 (oxBlock p1 start stop) ((stop + 1) % n)).drop (n - stop - 1)
          ++ oxBlock p1 start stop
          ++ (oxFillVals p2 (oxBlock p1 start stop) ((stop + 1) % n)).take (n - stop - 1)) := by
  have hlen1 : p1.length = n := h1.length_eq.trans (List.length_range n)
  have hlen2 : p2.length = n := h2.length_eq.trans (List.length_range n)
  have hn : 0 < n := by omega
  have hsle : start ≤ stop := le_of_lt hss
  have hsmod : (stop + 1) % n < n := Nat.mod_lt _ hn
  have hvals_len : (oxFillVals p2 (oxBlock p1 start stop) ((stop + 1) % n)).length
      = start + (n - stop - 1) :=
    oxFillVals_length p1 p2 n ((stop + 1) % n) start stop h1 h2 hsle hsn
  have hchild_len : (oxInit p1 start stop).length = n := by
    rw [oxInit_length, hlen1]
  have hloop : oxLoop p2 n n ((stop + 1) % n) ((stop + 1) % n) (oxInit p1 start stop)
      = some (setMany (oxInit p1 start stop) ((List.range n).rotate ((stop + 1) % n))
          (oxFillVals p2 (oxBlock p1 start stop) ((stop + 1) % n))) := by
    rw [oxLoop_eq_absLoop p2 n hlen2 n n _ _ _ le_rfl le_rfl hsmod hsmod]
    have ht1 : (p2.rotate ((stop + 1) % n)).take n = p2.rotate ((stop + 1) % n) := by
      apply List.take_of_length_le
      rw [List.length_rotate, hlen2]
    have ht2 : ((List.range n).rotate ((stop + 1) % n)).take n
        = (List.range n).rotate ((stop + 1) % n) := by
      apply List.take_of_length_le
      rw [List.length_rotate, List.length_range]
    rw [ht1, ht2]
    exact absLoop_spec (oxBlock p1 start stop) _ _ _
      ((List.rotate_perm p2 _).nodup_iff.mpr (h2.nodup_iff.mpr (List.nodup_range n)))
      (fun v _ => mem_oxInit p1 n start stop hlen1 hsle hsn v)
      ((List.rotate_perm (List.range n) _).nodup_iff.mpr (List.nodup_range n))
      (by rw [count_oxInit p1 n start stop hlen1 hsle hsn]; exact hvals_len.symm)
      (by
        rw [count_oxInit p1 n start stop hlen1 hsle hsn, List.length_rotate,
          List.length_range]
        omega)
      (by
        rw [count_oxInit p1 n start stop hlen1 hsle hsn, psTake n start stop hsle hsn]
        intro p hp
        rw [List.mem_append] at hp
        have hpn : p < n ∧ ¬(start ≤ p ∧ p ≤ stop) := by
          rcases hp with hp | hp
          · rw [List.mem_range'_1] at hp
            refine ⟨by omega, ?_⟩
            rintro ⟨_, hh⟩
            omega
          · rw [List.mem_range] at hp
            refine ⟨by omega, ?_⟩
            rintro ⟨hh, _⟩
            omega
        exact ⟨by rw [hchild_len]; exact hpn.1,
          oxInit_getD_none p1 start stop p (by rw [hlen1]; exact hpn.1) hpn.2⟩)
  have hset : setMany (oxInit p1 start stop) ((List.range n).rotate ((stop + 1) % n))
      (oxFillVals p2 (oxBlock p1 start stop) ((stop + 1) % n))
      = List.map some
          ((oxFillVals p2 (oxBlock p1 start stop) ((stop + 1) % n)).drop (n - stop - 1)
            ++ oxBlock p1 start stop
            ++ (oxFillVals p2 (oxBlock p1 start stop) ((stop + 1) % n)).take (n - stop - 1)) := by
    rw [setMany_take (oxFillVals p2 (oxBlock p1 start stop) ((stop + 1) % n))
      (oxInit p1 start stop) ((List.range n).rotate ((stop + 1) % n))]
    rw [hvals_len, psTake n start stop hsle hsn]
    rw [setMany_append]
    rw [List.length_range']
    have htklen : ((oxFillVals p2 (oxBlock p1 start stop) ((stop + 1) % n)).take
        (n - stop - 1)).length = n - stop - 1 := by
      rw [List.length_take, hvals_len]
      omega
    rw [setMany_range'_of_len (oxInit p1 start stop) (stop + 1) (n - stop - 1) _ htklen
      (by rw [hchild_len]; omega)]
    have hdropn : (oxInit p1 start stop).drop (stop + 1 + (n - stop - 1)) = [] := by
      rw [show stop + 1 + (n - stop - 1) = n from by omega, ← hchild_len, List.drop_length]
    rw [hdropn, List.append_nil]
    have htake1 : (oxInit p1 start stop).take (stop + 1)
        = List.replicate start (none : Option ℕ) ++ (oxBlock p1 start stop).map some := by
      rw [oxInit_eq p1 n start stop hlen1 hsle hsn]
      exact List.take_left' (by
        rw [List.length_append, List.length_replicate, List.length_map,
          oxBlock_length p1 n start stop hlen1 hsle hsn]
        omega)
    rw [htake1]
    have hdrlen : ((oxFillVals p2 (oxBlock p1 start stop) ((stop + 1) % n)).drop
        (n - stop - 1)).length = start := by
      rw [List.length_drop, hvals_len]
      omega
    rw [List.range_eq_range']
    rw [setMany_range'_of_len _ 0 start _ hdrlen (by
      simp only [List.length_append, List.length_replicate, List.length_map, htklen,
        oxBlock_length p1 n start stop hlen1 hsle hsn]
      omega)]
    have hc1drop : ((List.replicate start (none : Option ℕ)
          ++ (oxBlock p1 start stop).map some)
        ++ ((oxFillVals p2 (oxBlock p1 start stop) ((stop + 1) % n)).take
            (n - stop - 1)).map some).drop (0 + start)
        = (oxBlock p1 start stop).map some
          ++ ((oxFillVals p2 (oxBlock p1 start stop) ((stop + 1) % n)).take
            (n - stop - 1)).map some := by
      rw [Nat.zero_add, List.append_assoc]
      exact List.drop_left' (List.length_replicate _ _)
    rw [hc1drop, List.take_zero, List.nil_append]
    simp [List.map_append, List.append_assoc]
  simp only [order_crossover, hlen1, hloop, hset]
  rw [map_some_strip]

theorem count_set {α : Type} [DecidableEq α] (l : List α) (p : ℕ) (hp : p < l.length)
    (v c : α) :
    (l.set p v).count c + (if l[p] = c then 1 else 0)
      = l.count c + (if v = c then 1 else 0) := by
  have hl : l.count c
      = (l.take p).count c + (if l[p] = c then 1 else 0) + (l.drop (p + 1)).count c := by
    conv_lhs => rw [← List.take_append_drop p l, List.drop_eq_getElem_cons hp]
    rw [List.count_append, List.count_cons]
    by_cases h1 : l[p] = c <;> simp [h1] <;> omega
  have hs : (l.set p v).count c
      = (l.take p).count c + (if v = c then 1 else 0) + (l.drop (p + 1)).count c := by
    rw [List.set_eq_take_append_cons_drop, if_pos hp]
    rw [List.count_append, List.count_cons]
    by_cases h2 : v = c <;> simp [h2] <;> omega
  rw [hl, hs]
  by_cases h1 : l[p] = c <;> by_cases h2 : v = c <;> simp [h1, h2] <;> omega

/-- `swap_mutation` with two distinct in-range indices permutes the route. -/
theorem swap_mutation_perm (l : List ℕ) (a b : ℕ) (ha : a < l.length) (hb : b < l.length)
    (hab : a ≠ b) : swap_mutation l a b ~ l := by
  rw [List.perm_iff_count]
  intro c
  have hgb : l.getD b 0 = l[b] := getD_eq_getElem l 0 hb
  have hga : l.getD a 0 = l[a] := getD_eq_getElem l 0 ha
  simp only [swap_mutation, hga, hgb]
  have h1 := count_set l a ha (l[b]) c
  have hb1 : b < (l.set a (l[b])).length := by simpa using hb
  have h2 := count_set (l.set a (l[b])) b hb1 (l[a]) c
  have hbeq : (l.set a (l[b]))[b] = l[b] := List.getElem_set_ne hab hb1
  rw [hbeq] at h2
  split_ifs at h1 h2 <;> omega

theorem oxFillVals_append_block_perm (p1 p2 : List ℕ) (n s start stop : ℕ)
    (h1 : p1 ~ List.range n) (h2 : p2 ~ List.range n) :
    oxFillVals p2 (oxBlock p1 start stop) s ++ oxBlock p1 start stop ~ List.range n := by
  have hv := oxFillVals_perm p2 n s h2 (oxBlock p1 start stop)
  have hb := (filter_range_mem_perm (oxBlock p1 start stop) n
    (oxBlock_nodup p1 n start stop h1) (oxBlock_lt p1 n start stop h1)).symm
  have happ := hv.append hb
  have hfin := List.filter_append_perm
    (fun v => decide (v ∉ oxBlock p1 start stop)) (List.range n)
  have heq : (fun x => !decide (x ∉ oxBlock p1 start stop))
      = (fun x => decide (x ∈ oxBlock p1 start stop)) := by
    funext x
    rw [decide_not, Bool.not_not]
  rw [heq] at hfin
  exact happ.trans hfin

/-- Any child produced by `order_crossover` on two parent permutations with
valid cut points is itself a permutation of `{0..n-1}`. -/
theorem order_crossover_result_perm (p1 p2 : List ℕ) (n start stop : ℕ)
    (h1 : p1 ~ List.range n) (h2 : p2 ~ List.range n)
    (hss : start < stop) (hsn : stop < n) (c : List ℕ)
    (hc : order_crossover p1 p2 start stop = some c) : c ~ List.range n := by
  rw [order_crossover_eq p1 p2 n start stop h1 h2 hss hsn] at hc
  have hc2 := Option.some_injective _ hc
  subst hc2
  have hstep : (oxFillVals p2 (oxBlock p1 start stop) ((stop + 1) % n)).drop (n - stop - 1)
        ++ oxBlock p1 start stop
        ++ (oxFillVals p2 (oxBlock p1 start stop) ((stop + 1) % n)).take (n - stop - 1)
      ~ oxFillVals p2 (oxBlock p1 start stop) ((stop + 1) % n) ++ oxBlock p1 start stop := by
    have hcomm := @List.perm_append_comm ℕ
      ((oxFillVals p2 (oxBlock p1 start stop) ((stop + 1) % n)).drop (n - stop - 1)
        ++ oxBlock p1 start stop)
      ((oxFillVals p2 (oxBlock p1 start stop) ((stop + 1) % n)).take (n - stop - 1))
    apply hcomm.trans
    rw [← List.append_assoc, List.take_append_drop]
  exact hstep.trans (oxFillVals_append_block_perm p1 p2 n _ start stop h1 h2)

/-- The child inherits `parent1`'s slice `[start..stop]` verbatim. -/
theorem order_crossover_slice (p1 p2 : List ℕ) (n start stop : ℕ)
    (h1 : p1 ~ List.range n) (h2 : p2 ~ List.range n)
    (hss : start < stop) (hsn : stop < n) (c : List ℕ)
    (hc : order_crossover p1 p2 start stop = some c) :
    (c.drop start).take (stop + 1 - start) = (p1.drop start).take (stop + 1 - start) := by
  rw [order_crossover_eq p1 p2 n start stop h1 h2 hss hsn] at hc
  have hc2 := Option.some_injective _ hc
  subst hc2
  have hlen1 : p1.length = n := h1.length_eq.trans (List.length_range n)
  have hvals_len : (oxFillVals p2 (oxBlock p1 start stop) ((stop + 1) % n)).length
      = start + (n - stop - 1) :=
    oxFillVals_length p1 p2 n ((stop + 1) % n) start stop h1 h2 (le_of_lt hss) hsn
  rw [List.append_assoc]
  rw [List.drop_left' (by rw [List.length_drop, hvals_len]; omega)]
  rw [List.take_left'
    (oxBlock_length p1 n start stop hlen1 (le_of_lt hss) hsn)]
  rfl

/-- The child read circularly from position `(stop+1) % n` is exactly the
filtered circular scan of `parent2` followed by `parent1`'s block. -/
theorem order_crossover_rotate (p1 p2 : List ℕ) (n start stop : ℕ)
    (h1 : p1 ~ List.range n) (h2 : p2 ~ List.range n)
    (hss : start < stop) (hsn : stop < n) (c : List ℕ)
    (hc : order_crossover p1 p2 start stop = some c) :
    c.rotate ((stop + 1) % n)
      = oxFillVals p2 (oxBlock p1 start stop) ((stop + 1) % n)
        ++ oxBlock p1 start stop := by
  rw [order_crossover_eq p1 p2 n start stop h1 h2 hss hsn] at hc
  have hc2 := Option.some_injective _ hc
  subst hc2
  have hlen1 : p1.length = n := h1.length_eq.trans (List.length_range n)
  have hvals_len : (oxFillVals p2 (oxBlock p1 start stop) ((stop + 1) % n)).length
      = start + (n - stop - 1) :=
    oxFillVals_length p1 p2 n ((stop + 1) % n) start stop h1 h2 (le_of_lt hss) hsn
  have hblock_len : (oxBlock p1 start stop).length = stop + 1 - start :=
    oxBlock_length p1 n start stop hlen1 (le_of_lt hss) hsn
  rcases Nat.lt_or_ge (stop + 1) n with hlt | hge
  · have hs : (stop + 1) % n = stop + 1 := Nat.mod_eq_of_lt hlt
    rw [hs] at hvals_len ⊢
    have hlenc : ((oxFillVals p2 (oxBlock p1 start stop) (stop + 1)).drop (n - stop - 1)
          ++ oxBlock p1 start stop).length = stop + 1 := by
      rw [List.length_append, List.length_drop, hvals_len, hblock_len]
      omega
    rw [List.rotate_eq_drop_append_take (by
      rw [List.length_append, List.length_append, List.length_drop, List.length_take,
        hvals_len, hblock_len]
      omega)]
    rw [List.drop_left' hlenc, List.take_left' hlenc]
    rw [← List.append_assoc, List.take_append_drop]
  · have hstopn : stop + 1 = n := by omega
    have hs : (stop + 1) % n = 0 := by rw [hstopn, Nat.mod_self]
    rw [hs]
    rw [List.rotate_zero, show n - stop - 1 = 0 from by omega, List.take_zero,
      List.append_nil, List.drop_zero]

/-! ### The evolution loop (salesman.py lines 143-185)

The shared pseudo-random source is an oracle `RandModel`, indexed by the
generation `g`, the child index `c` within the generation and (for the two
tournaments and the two `random.random()` draws of one child) a call index
`w`.  `RandModel.Valid` states exactly the guarantees of the Python
primitives.  `float('inf')` (initial `best_distance`) is modelled by
`(⊤ : EReal)`; exceptions raised by `random.sample` (when `k > len(seq)`)
and by indexing an empty list are modelled by `Except GAErr`. -/

structure RandModel where
  /-- `random.shuffle` as used on the `i`-th individual of `init_population`. -/
  shuffle : ℕ → List ℕ → List ℕ
  /-- `random.sample(population, tournament_size)` in `tournament_selection`. -/
  sample : ℕ → ℕ → ℕ → ℕ → List (List ℕ) → List (List ℕ)
  /-- `random.random()` (crossover coin `w = 0`, mutation coin `w = 1`). -/
  unif : ℕ → ℕ → ℕ → ℝ
  /-- `sorted(random.sample(range(size), 2))` in `order_crossover`. -/
  cutPoints : ℕ → ℕ → ℕ → ℕ × ℕ
  /-- `random.sample(range(len(individual)), 2)` in `swap_mutation`. -/
  swapPick : ℕ → ℕ → ℕ → ℕ × ℕ

/-- The guarantees Python's `random` module gives for each primitive. -/
structure RandModel.Valid (R : RandModel) : Prop where
  shuffle_perm : ∀ i l, R.shuffle i l ~ l
  sample_subperm : ∀ g c w k pop, k ≤ pop.length → R.sample g c w k pop <+~ pop
  sample_length : ∀ g c w k pop, k ≤ pop.length → (R.sample g c w k pop).length = k
  unif_nonneg : ∀ g c w, 0 ≤ R.unif g c w
  unif_lt_one : ∀ g c w, R.unif g c w < 1
  cut_sorted : ∀ g c m, 2 ≤ m → (R.cutPoints g c m).1 < (R.cutPoints g c m).2
  cut_lt : ∀ g c m, 2 ≤ m → (R.cutPoints g c m).2 < m
  swap_fst_lt : ∀ g c m, 2 ≤ m → (R.swapPick g c m).1 < m
  swap_snd_lt : ∀ g c m, 2 ≤ m → (R.swapPick g c m).2 < m
  swap_ne : ∀ g c m, 2 ≤ m → (R.swapPick g c m).1 ≠ (R.swapPick g c m).2

/-- Runtime exceptions of the Python code: `ValueError` from
`random.sample(seq, k)` with `k > len(seq)`, `IndexError` from `seq[0]` on an
empty sequence, and (virtual) divergence of the crossover fill loop. -/
inductive GAErr where
  | sampleTooLarge
  | indexError
  | diverged
deriving DecidableEq

/-- `init_population(pop_size, num_cities)` (salesman.py lines 51-61). -/
def init_population (R : RandModel) (pop_size num_cities : ℕ) : List (List ℕ) :=
  (List.range pop_size).map (fun i => R.shuffle i (List.range num_cities))

/-- `tournament_selection(population, cities, tournament_size)`
(salesman.py lines 64-71): sample, sort by distance, return a copy of the
best.  `random.sample` raises when `tournament_size > len(population)`;
`tournament[0]` raises when the tournament is empty. -/
noncomputable def tournament_selection (R : RandModel) (population : List (List ℕ))
    (cities : List (ℝ × ℝ)) (tournament_size g c w : ℕ) : Except GAErr (List ℕ) :=
  if tournament_size ≤ population.length then
    match (sortPop cities (R.sample g c w tournament_size population)).head? with
    | some best => .ok best
    | none => .error .indexError
  else .error .sampleTooLarge

/-- `if random.random() < crossover_rate: child = order_crossover(p1, p2)
else: child = parent1[:]` (salesman.py lines 167-171).  Inside
`order_crossover`, `random.sample(range(size), 2)` raises iff `size < 2`. -/
noncomputable def crossStep (R : RandModel) (crossover_rate : ℝ) (g c : ℕ)
    (parent1 parent2 : List ℕ) : Except GAErr (List ℕ) :=
  if R.unif g c 0 < crossover_rate then
    if 2 ≤ parent1.length then
      match order_crossover parent1 parent2 (R.cutPoints g c parent1.length).1
          (R.cutPoints g c parent1.length).2 with
      | some child => .ok child
      | none => .error .diverged
    else .error .sampleTooLarge
  else .ok parent1

/-- `if random.random() < mutation_rate: child = swap_mutation(child)`
(salesman.py lines 173-175).  Inside `swap_mutation`,
`random.sample(range(len(individual)), 2)` raises iff the length is `< 2`. -/
noncomputable def mutStep (R : RandModel) (mutation_rate : ℝ) (g c : ℕ)
    (child : List ℕ) : Except GAErr (List ℕ) :=
  if R.unif g c 1 < mutation_rate then
    if 2 ≤ child.length then
      .ok (swap_mutation child (R.swapPick g c child.length).1
        (R.swapPick g c child.length).2)
    else .error .sampleTooLarge
  else .ok child

/-- One iteration of the `while len(new_population) < pop_size` loop
(salesman.py lines 163-177). -/
noncomputable def makeChild (R : RandModel) (cities : List (ℝ × ℝ))
    (tournament_size : ℕ) (crossover_rate mutation_rate : ℝ)
    (pop : List (List ℕ)) (g c : ℕ) : Except GAErr (List ℕ) :=
  match tournament_selection R pop cities tournament_size g c 0 with
  | .error e => .error e
  | .ok parent1 =>
    match tournament_selection R pop cities tournament_size g c 1 with
    | .error e => .error e
    | .ok parent2 =>
      match crossStep R crossover_rate g c parent1 parent2 with
      | .error e => .error e
      | .ok child => mutStep R mutation_rate g c child

/-- The offspring loop, producing the `k` children still needed. -/
noncomputable def buildChildren (R : RandModel) (cities : List (ℝ × ℝ))
    (tournament_size : ℕ) (crossover_rate mutation_rate : ℝ)
    (pop : List (List ℕ)) (g : ℕ) :
    ℕ → ℕ → Except GAErr (List (List ℕ))
  | 0, _ => .ok []
  | k + 1, c =>
    match makeChild R cities tournament_size crossover_rate mutation_rate pop g c with
    | .error e => .error e
    | .ok child =>
      match buildChildren R cities tournament_size crossover_rate mutation_rate
          pop g k (c + 1) with
      | .error e => .error e
      | .ok rest => .ok (child :: rest)

/-- One generation (salesman.py lines 150-179): elitism step (in-place sort
of the population, copy of the best, update of the run-wide record — both
`best_distance` and `best_route` under the single test
`total_distance(best_in_population, cities) < best_distance`), then the
offspring loop.  Returns the next population and the updated record. -/
noncomputable def gaGen (R : RandModel) (cities : List (ℝ × ℝ))
    (pop_size tournament_size : ℕ) (crossover_rate mutation_rate : ℝ)
    (elitism : Bool) (g : ℕ) (pop : List (List ℕ))
    (best_route : Option (List ℕ)) (best_distance : EReal) :
    Except GAErr (List (List ℕ) × Option (List ℕ) × EReal) :=
  if elitism then
    match sortPop cities pop with
    | [] => .error .indexError
    | best :: rest =>
      let d : EReal := ((total_distance best cities : ℝ) : EReal)
      match buildChildren R cities tournament_size crossover_rate mutation_rate
          (best :: rest) g (pop_size - 1) 0 with
      | .error e => .error e
      | .ok children =>
        .ok (best :: children,
          (if d < best_distance then some best else best_route),
          (if d < best_distance then d else best_distance))
  else
    match buildChildren R cities tournament_size crossover_rate mutation_rate
        pop g pop_size 0 with
    | .error e => .error e
    | .ok children => .ok (children, best_route, best_distance)

/-- The generation loop; `hist` accumulates
`best_distance_history.append(best_distance)` (salesman.py line 181). -/
noncomputable def gaLoop (R : RandModel) (cities : List (ℝ × ℝ))
    (pop_size tournament_size : ℕ) (crossover_rate mutation_rate : ℝ)
    (elitism : Bool) :
    ℕ → ℕ → List (List ℕ) → Option (List ℕ) → EReal → List EReal →
    Except GAErr (Option (List ℕ) × EReal × List EReal)
  | 0, _, _, br, bd, hist => .ok (br, bd, hist)
  | gLeft + 1, g, pop, br, bd, hist =>
    match gaGen R cities pop_size tournament_size crossover_rate mutation_rate
        elitism g pop br bd with
    | .error e => .error e
    | .ok (pop', br', bd') =>
      gaLoop R cities pop_size tournament_size crossover_rate mutation_rate elitism
        gLeft (g + 1) pop' br' bd' (hist ++ [bd'])

/-- `genetic_algorithm(cities, pop_size, num_generations, tournament_size,
crossover_rate, mutation_rate, elitism)` (salesman.py lines 143-185).
Returns `(best_route, best_distance, best_distance_history)` with the
initial record `best_route = None`, `best_distance = float('inf')`. -/
noncomputable def genetic_algorithm (R : RandModel) (cities : List (ℝ × ℝ))
    (pop_size num_generations tournament_size : ℕ)
    (crossover_rate mutation_rate : ℝ) (elitism : Bool) :
    Except GAErr (Option (List ℕ) × EReal × List EReal) :=
  gaLoop R cities pop_size tournament_size crossover_rate mutation_rate elitism
    num_generations 0 (init_population R pop_size cities.length) none ⊤ []

/-! ### Properties of tournament selection -/

theorem tournament_selection_mem (R : RandModel) (population : List (List ℕ))
    (cities : List (ℝ × ℝ)) (tournament_size g c w : ℕ) (r : List ℕ)
    (hok : tournament_selection R population cities tournament_size g c w = .ok r) :
    r ∈ R.sample g c w tournament_size population := by
  rw [tournament_selection] at hok
  by_cases ht : tournament_size ≤ population.length
  · rw [if_pos ht] at hok
    cases hh : (sortPop cities (R.sample g c w tournament_size population)).head? with
    | none => rw [hh] at hok; exact absurd hok (by simp)
    | some best =>
      rw [hh] at hok
      have hbr : best = r := by
        injection hok
      subst hbr
      exact ((sortPop_perm cities _).mem_iff).mp
        (List.mem_of_mem_head? (hh ▸ rfl))
  · rw [if_neg ht] at hok
    exact absurd hok (by simp)

/-- The selected individual minimises `total_distance` over the sampled
tournament. -/
theorem tournament_selection_min (R : RandModel) (population : List (List ℕ))
    (cities : List (ℝ × ℝ)) (tournament_size g c w : ℕ) (r : List ℕ)
    (hok : tournament_selection R population cities tournament_size g c w = .ok r) :
    ∀ x ∈ R.sample g c w tournament_size population,
      total_distance r cities ≤ total_distance x cities := by
  intro x hx
  rw [tournament_selection] at hok
  by_cases ht : tournament_size ≤ population.length
  · rw [if_pos ht] at hok
    cases hh : sortPop cities (R.sample g c w tournament_size population) with
    | nil => rw [hh] at hok; exact absurd hok (by simp)
    | cons best tail =>
      rw [hh] at hok
      simp only [List.head?_cons] at hok
      have hbr : best = r := by injection hok
      subst hbr
      have hsorted : List.Sorted (routeLe cities) (best :: tail) := by
        rw [← hh]
        exact sortPop_sorted cities _
      have hxmem : x ∈ best :: tail := by
        rw [← hh]
        exact ((sortPop_perm cities _).mem_iff).mpr hx
      rcases List.mem_cons.mp hxmem with hxb | hxt
      · rw [hxb]
      · exact List.rel_of_sorted_cons hsorted x hxt
  · rw [if_neg ht] at hok
    exact absurd hok (by simp)

theorem tournament_selection_ok (R : RandModel) (hR : R.Valid)
    (population : List (List ℕ)) (cities : List (ℝ × ℝ))
    (tournament_size g c w : ℕ) (ht1 : 1 ≤ tournament_size)
    (htp : tournament_size ≤ population.length) :
    ∃ r, tournament_selection R population cities tournament_size g c w = .ok r := by
  rw [tournament_selection, if_pos htp]
  have hlen : (sortPop cities (R.sample g c w tournament_size population)).length
      = tournament_size := by
    rw [(sortPop_perm cities _).length_eq]
    exact hR.sample_length g c w tournament_size population htp
  cases hh : sortPop cities (R.sample g c w tournament_size population) with
  | nil =>
    rw [hh] at hlen
    simp at hlen
    omega
  | cons best tail => exact ⟨best, by rw [List.head?_cons]⟩

/-! ### Invariants of the evolution loop -/

/-- The run-wide record `(best_route, best_distance)` is either still the
initial `(None, inf)` or a permutation together with its own distance. -/
def BestOk (cities : List (ℝ × ℝ)) (N : ℕ) (br : Option (List ℕ)) (bd : EReal) : Prop :=
  (br = none ∧ bd = ⊤) ∨
  (∃ r, br = some r ∧ r ~ List.range N
    ∧ bd = ((total_distance r cities : ℝ) : EReal))

theorem makeChild_ok (R : RandModel) (hR : R.Valid) (cities : List (ℝ × ℝ))
    (tournament_size : ℕ) (crossover_rate mutation_rate : ℝ)
    (pop : List (List ℕ)) (g c N : ℕ)
    (hN : 2 ≤ N) (ht1 : 1 ≤ tournament_size) (htp : tournament_size ≤ pop.length)
    (hpop : ∀ r ∈ pop, r ~ List.range N) :
    ∃ ch, makeChild R cities tournament_size crossover_rate mutation_rate pop g c
        = .ok ch ∧ ch ~ List.range N := by
  obtain ⟨p1, hp1⟩ :=
    tournament_selection_ok R hR pop cities tournament_size g c 0 ht1 htp
  obtain ⟨p2, hp2⟩ :=
    tournament_selection_ok R hR pop cities tournament_size g c 1 ht1 htp
  have hp1perm : p1 ~ List.range N :=
    hpop p1 ((hR.sample_subperm g c 0 _ pop htp).subset
      (tournament_selection_mem _ _ _ _ _ _ _ _ hp1))
  have hp2perm : p2 ~ List.range N :=
    hpop p2 ((hR.sample_subperm g c 1 _ pop htp).subset
      (tournament_selection_mem _ _ _ _ _ _ _ _ hp2))
  have hp1len : p1.length = N := hp1perm.length_eq.trans (List.length_range N)
  have hcross : ∃ ch, crossStep R crossover_rate g c p1 p2 = .ok ch
      ∧ ch ~ List.range N := by
    rw [crossStep]
    by_cases hcoin : R.unif g c 0 < crossover_rate
    · rw [if_pos hcoin, if_pos (by rw [hp1len]; omega : 2 ≤ p1.length)]
      have hm : 2 ≤ p1.length := by rw [hp1len]; omega
      have hcut1 := hR.cut_sorted g c p1.length hm
      have hcut2 : (R.cutPoints g c p1.length).2 < N := by
        have h5 := hR.cut_lt g c p1.length hm
        omega
      have hox := order_crossover_eq p1 p2 N (R.cutPoints g c p1.length).1
        (R.cutPoints g c p1.length).2 hp1perm hp2perm hcut1 hcut2
      rw [hox]
      exact ⟨_, rfl, order_crossover_result_perm p1 p2 N _ _ hp1perm hp2perm
        hcut1 hcut2 _ hox⟩
    · rw [if_neg hcoin]
      exact ⟨p1, rfl, hp1perm⟩
  obtain ⟨ch, hch, hchperm⟩ := hcross
  have hchlen : ch.length = N := hchperm.length_eq.trans (List.length_range N)
  have hmut : ∃ ch2, mutStep R mutation_rate g c ch = .ok ch2
      ∧ ch2 ~ List.range N := by
    rw [mutStep]
    by_cases hcoin : R.unif g c 1 < mutation_rate
    · rw [if_pos hcoin, if_pos (by rw [hchlen]; omega : 2 ≤ ch.length)]
      have hm : 2 ≤ ch.length := by rw [hchlen]; omega
      refine ⟨_, rfl, ?_⟩
      exact (swap_mutation_perm ch _ _ (hR.swap_fst_lt g c ch.length hm)
        (hR.swap_snd_lt g c ch.length hm) (hR.swap_ne g c ch.length hm)).trans hchperm
    · rw [if_neg hcoin]
      exact ⟨ch, rfl, hchperm⟩
  obtain ⟨ch2, hch2, hch2perm⟩ := hmut
  refine ⟨ch2, ?_, hch2perm⟩
  simp only [makeChild, hp1, hp2, hch, hch2]

theorem buildChildren_ok (R : RandModel) (hR : R.Valid) (cities : List (ℝ × ℝ))
    (tournament_size : ℕ) (crossover_rate mutation_rate : ℝ)
    (pop : List (List ℕ)) (g N : ℕ)
    (hN : 2 ≤ N) (ht1 : 1 ≤ tournament_size) (htp : tournament_size ≤ pop.length)
    (hpop : ∀ r ∈ pop, r ~ List.range N) :
    ∀ k c, ∃ chs,
      buildChildren R cities tournament_size crossover_rate mutation_rate pop g k c
        = .ok chs ∧ chs.length = k ∧ ∀ r ∈ chs, r ~ List.range N := by
  intro k
  induction k with
  | zero => exact fun c => ⟨[], rfl, rfl, by simp⟩
  | succ k ih =>
    intro c
    obtain ⟨ch, hch, hchperm⟩ := makeChild_ok R hR cities tournament_size
      crossover_rate mutation_rate pop g c N hN ht1 htp hpop
    obtain ⟨rest, hrest, hlen, hperm⟩ := ih (c + 1)
    refine ⟨ch :: rest, ?_, by simp [hlen], ?_⟩
    · show buildChildren R cities tournament_size crossover_rate mutation_rate
        pop g (k + 1) c = .ok (ch :: rest)
      simp only [buildChildren, hch, hrest]
    · intro r hr
      rcases List.mem_cons.mp hr with hr | hr
      · rw [hr]; exact hchperm
      · exact hperm r hr

theorem gaGen_ok (R : RandModel) (hR : R.Valid) (cities : List (ℝ × ℝ))
    (pop_size tournament_size : ℕ) (crossover_rate mutation_rate : ℝ)
    (g : ℕ) (pop : List (List ℕ)) (br : Option (List ℕ)) (bd : EReal)
    (hN : 2 ≤ cities.length) (hps : 2 ≤ pop_size) (ht1 : 1 ≤ tournament_size)
    (htp : tournament_size ≤ pop_size)
    (hlen : pop.length = pop_size) (hpop : ∀ r ∈ pop, r ~ List.range cities.length)
    (hbest : BestOk cities cities.length br bd) :
    ∃ pop' r' bd',
      gaGen R cities pop_size tournament_size crossover_rate mutation_rate true g
          pop br bd = .ok (pop', some r', bd')
      ∧ pop'.length = pop_size ∧ (∀ x ∈ pop', x ~ List.range cities.length)
      ∧ r' ~ List.range cities.length
      ∧ bd' = ((total_distance r' cities : ℝ) : EReal) := by
  cases hsort : sortPop cities pop with
  | nil =>
    exfalso
    have := (sortPop_perm cities pop).length_eq
    rw [hsort, hlen] at this
    simp at this
    omega
  | cons best rest =>
    have hmem : ∀ x ∈ best :: rest, x ~ List.range cities.length := by
      intro x hx
      apply hpop
      exact ((sortPop_perm cities pop).mem_iff).mp (hsort ▸ hx)
    have hlen2 : (best :: rest).length = pop_size := by
      rw [← hsort, (sortPop_perm cities pop).length_eq, hlen]
    obtain ⟨chs, hchs, hchslen, hchsperm⟩ := buildChildren_ok R hR cities
      tournament_size crossover_rate mutation_rate (best :: rest) g cities.length
      hN ht1 (by omega) hmem (pop_size - 1) 0
    have hbperm : best ~ List.range cities.length := hmem best (List.mem_cons_self _ _)
    have hall : ∀ x ∈ best :: chs, x ~ List.range cities.length := by
      intro x hx
      rcases List.mem_cons.mp hx with hx | hx
      · rw [hx]; exact hbperm
      · exact hchsperm x hx
    have hlenall : (best :: chs).length = pop_size := by
      simp [hchslen]
      omega
    by_cases hd : ((total_distance best cities : ℝ) : EReal) < bd
    · refine ⟨best :: chs, best, _, ?_, hlenall, hall, hbperm, rfl⟩
      simp only [gaGen, if_true, hsort, hchs]
      rw [if_pos hd, if_pos hd]
    · rcases hbest with ⟨_, hbd⟩ | ⟨r, hbr, hrperm, hbd⟩
      · exfalso
        rw [hbd] at hd
        exact hd (EReal.coe_lt_top _)
      · refine ⟨best :: chs, r, bd, ?_, hlenall, hall, hrperm, hbd⟩
        simp only [gaGen, if_true, hsort, hchs]
        rw [if_neg hd, if_neg hd, hbr]

theorem gaLoop_ok (R : RandModel) (hR : R.Valid) (cities : List (ℝ × ℝ))
    (pop_size tournament_size : ℕ) (crossover_rate mutation_rate : ℝ)
    (hN : 2 ≤ cities.length) (hps : 2 ≤ pop_size) (ht1 : 1 ≤ tournament_size)
    (htp : tournament_size ≤ pop_size) :
    ∀ (gLeft g : ℕ) (pop : List (List ℕ)) (br : Option (List ℕ)) (bd : EReal)
      (hist : List EReal),
    pop.length = pop_size → (∀ r ∈ pop, r ~ List.range cities.length) →
    BestOk cities cities.length br bd →
    ∃ br' bd' tail,
      gaLoop R cities pop_size tournament_size crossover_rate mutation_rate true
          gLeft g pop br bd hist = .ok (br', bd', hist ++ tail)
      ∧ tail.length = gLeft
      ∧ BestOk cities cities.length br' bd'
      ∧ (br.isSome = true → br'.isSome = true)
      ∧ (0 < gLeft → br'.isSome = true)
      ∧ (∀ x ∈ tail, ∃ y : ℝ, x = (y : EReal)) := by
  intro gLeft
  induction gLeft with
  | zero =>
    intro g pop br bd hist h1 h2 h3
    exact ⟨br, bd, [], by simp [gaLoop], rfl, h3, fun h => h, by omega, by simp⟩
  | succ gLeft ih =>
    intro g pop br bd hist h1 h2 h3
    obtain ⟨pop1, r1, bd1, hgen, hlen1, hperm1, hr1perm, hbd1⟩ :=
      gaGen_ok R hR cities pop_size tournament_size crossover_rate mutation_rate
        g pop br bd hN hps ht1 htp h1 h2 h3
    obtain ⟨br', bd', tail1, hloop, htl, hbok, hpres, _, hreal⟩ :=
      ih (g + 1) pop1 (some r1) bd1 (hist ++ [bd1]) hlen1 hperm1
        (Or.inr ⟨r1, rfl, hr1perm, hbd1⟩)
    refine ⟨br', bd', bd1 :: tail1, ?_, by simp [htl], hbok,
      fun _ => hpres rfl, fun _ => hpres rfl, ?_⟩
    · simp only [gaLoop, hgen, hloop]
      simp [List.append_assoc]
    · intro x hx
      rcases List.mem_cons.mp hx with hx | hx
      · exact ⟨total_distance r1 cities, by rw [hx, hbd1]⟩
      · exact hreal x hx

/-- One generation never increases the tracked best distance, elitism or not,
regardless of the random draws: the record is only ever overwritten by a
strictly smaller distance. -/
theorem gaGen_bd_le (R : RandModel) (cities : List (ℝ × ℝ))
    (pop_size tournament_size : ℕ) (crossover_rate mutation_rate : ℝ)
    (elitism : Bool) (g : ℕ) (pop pop' : List (List ℕ))
    (br br' : Option (List ℕ)) (bd bd' : EReal)
    (h : gaGen R cities pop_size tournament_size crossover_rate mutation_rate
      elitism g pop br bd = .ok (pop', br', bd')) : bd' ≤ bd := by
  rw [gaGen] at h
  cases elitism with
  | false =>
    rw [if_neg (by simp)] at h
    cases hb : buildChildren R cities tournament_size crossover_rate mutation_rate
        pop g pop_size 0 with
    | error e => rw [hb] at h; exact absurd h (by simp)
    | ok chs =>
      rw [hb] at h
      simp only [Except.ok.injEq, Prod.mk.injEq] at h
      rw [← h.2.2]
  | true =>
    rw [if_pos rfl] at h
    cases hs : sortPop cities pop with
    | nil => rw [hs] at h; exact absurd h (by simp)
    | cons best rest =>
      rw [hs] at h
      simp only at h
      cases hb : buildChildren R cities tournament_size crossover_rate mutation_rate
          (best :: rest) g (pop_size - 1) 0 with
      | error e => rw [hb] at h; exact absurd h (by simp)
      | ok chs =>
        rw [hb] at h
        simp only [Except.ok.injEq, Prod.mk.injEq] at h
        rw [← h.2.2]
        by_cases hd : ((total_distance best cities : ℝ) : EReal) < bd
        · rw [if_pos hd]
          exact le_of_lt hd
        · rw [if_neg hd]

/-- Across any completed run of the generation loop, each appended history
entry is bounded by the previous best distance and the entries are
non-increasing; the final best distance bounds every entry. -/
theorem gaLoop_hist (R : RandModel) (cities : List (ℝ × ℝ))
    (pop_size tournament_size : ℕ) (crossover_rate mutation_rate : ℝ)
    (elitism : Bool) :
    ∀ (gLeft g : ℕ) (pop : List (List ℕ)) (br : Option (List ℕ)) (bd : EReal)
      (hist : List EReal) (br' : Option (List ℕ)) (bd' : EReal) (hist' : List EReal),
    gaLoop R cities pop_size tournament_size crossover_rate mutation_rate elitism
        gLeft g pop br bd hist = .ok (br', bd', hist') →
    ∃ tail, hist' = hist ++ tail ∧ tail.length = gLeft
      ∧ List.Chain' (fun a b => b ≤ a) (bd :: tail)
      ∧ bd' ≤ bd ∧ (∀ x ∈ tail, bd' ≤ x) := by
  intro gLeft
  induction gLeft with
  | zero =>
    intro g pop br bd hist br' bd' hist' h
    simp only [gaLoop, Except.ok.injEq, Prod.mk.injEq] at h
    refine ⟨[], by rw [← h.2.2]; simp, rfl, List.chain'_singleton bd, le_of_eq h.2.1.symm,
      by simp⟩
  | succ gLeft ih =>
    intro g pop br bd hist br' bd' hist' h
    rw [gaLoop] at h
    cases hg : gaGen R cities pop_size tournament_size crossover_rate mutation_rate
        elitism g pop br bd with
    | error e => rw [hg] at h; exact absurd h (by simp)
    | ok x =>
      obtain ⟨pop1, br1, bd1⟩ := x
      rw [hg] at h
      simp only at h
      obtain ⟨tail1, htl1, hlen1, hchain1, hle1, hall1⟩ :=
        ih (g + 1) pop1 br1 bd1 (hist ++ [bd1]) br' bd' hist' h
      have hbd1 : bd1 ≤ bd := gaGen_bd_le R cities pop_size tournament_size
        crossover_rate mutation_rate elitism g pop pop1 br br1 bd bd1 hg
      refine ⟨bd1 :: tail1, ?_, by simp [hlen1], ?_, le_trans hle1 hbd1, ?_⟩
      · rw [htl1]
        simp
      · rw [List.chain'_cons]
        exact ⟨hbd1, hchain1⟩
      · intro x hx
        rcases List.mem_cons.mp hx with hx | hx
        · rw [hx]; exact hle1
        · exact hall1 x hx

/-! ### An object-heap view of `tournament_selection` (for the aliasing/frame
property).  Python lists are heap objects; `population` holds references
(addresses).  `random.sample` copies references into a fresh list,
`tournament.sort` reorders that list only, and `tournament[0][:]` allocates a
fresh object holding a copy of the winner's contents. -/

structure PyState where
  heap : List (List ℕ)

def addrLe (st : PyState) (cities : List (ℝ × ℝ)) (a b : ℕ) : Prop :=
  total_distance (st.heap.getD a []) cities ≤ total_distance (st.heap.getD b []) cities

instance addrLe_total (st : PyState) (cities : List (ℝ × ℝ)) :
    IsTotal ℕ (addrLe st cities) :=
  ⟨fun _ _ => le_total _ _⟩

instance addrLe_trans (st : PyState) (cities : List (ℝ × ℝ)) :
    IsTrans ℕ (addrLe st cities) :=
  ⟨fun _ _ _ => le_trans⟩

/-- `tournament_selection` acting on the heap: sort the sampled references by
route distance, then allocate a fresh copy (`tournament[0][:]`) of the best
individual and return its (fresh) address.  The heap cells of all existing
objects are untouched. -/
noncomputable def tournament_selection_heap (st : PyState) (cities : List (ℝ × ℝ))
    (sampled : List ℕ) : PyState × Option ℕ :=
  match @List.insertionSort _ (addrLe st cities) (Classical.decRel _) sampled with
  | [] => (st, none)
  | best :: _ => (⟨st.heap ++ [st.heap.getD best []]⟩, some st.heap.length)

/-! ### A concrete valid random oracle and concrete runs -/

/-- A concrete oracle: identity shuffles, prefix samples, all uniform draws
`1/2`, cut points `(0, 1)`, swap indices `(0, 1)`. -/
noncomputable def R0 : RandModel where
  shuffle := fun _ l => l
  sample := fun _ _ _ k pop => pop.take k
  unif := fun _ _ _ => 1 / 2
  cutPoints := fun _ _ _ => (0, 1)
  swapPick := fun _ _ _ => (0, 1)

theorem R0_valid : R0.Valid where
  shuffle_perm := fun _ l => List.Perm.refl l
  sample_subperm := fun _ _ _ k pop _ => (List.take_sublist k pop).subperm
  sample_length := fun _ _ _ k pop h => by
    show (pop.take k).length = k
    rw [List.length_take]
    omega
  unif_nonneg := fun _ _ _ => by norm_num [R0]
  unif_lt_one := fun _ _ _ => by norm_num [R0]
  cut_sorted := fun _ _ m _ => by norm_num [R0]
  cut_lt := fun _ _ m h => by
    show (1 : ℕ) < m
    omega
  swap_fst_lt := fun _ _ m h => by
    show (0 : ℕ) < m
    omega
  swap_snd_lt := fun _ _ m h => by
    show (1 : ℕ) < m
    omega
  swap_ne := fun _ _ m _ => by norm_num [R0]

noncomputable def cities1 : List (ℝ × ℝ) := [(0, 0)]

noncomputable def cities2 : List (ℝ × ℝ) := [(0, 0), (0, 1)]

theorem sortPop_singleton (cities : List (ℝ × ℝ)) (r : List ℕ) :
    sortPop cities [r] = [r] := by
  simp only [sortPop, List.insertionSort, List.orderedInsert]

theorem sortPop_pair_same (cities : List (ℝ × ℝ)) (r : List ℕ) :
    sortPop cities [r, r] = [r, r] := by
  simp only [sortPop, List.insertionSort, List.orderedInsert]
  rw [if_pos]
  exact le_refl (total_distance r cities)

theorem ts_eval_pair (cities : List (ℝ × ℝ)) (r : List ℕ) (g c w : ℕ) :
    tournament_selection R0 [r, r] cities 1 g c w = .ok r := by
  rw [tournament_selection, if_pos (by simp)]
  have hs : R0.sample g c w 1 [r, r] = [r] := rfl
  rw [hs, sortPop_singleton]
  rfl

theorem crossStep_skip (g c : ℕ) (p1 p2 : List ℕ) :
    crossStep R0 0 g c p1 p2 = .ok p1 := by
  rw [crossStep, if_neg]
  show ¬(R0.unif g c 0 < 0)
  norm_num [R0]

theorem mutStep_skip (g c : ℕ) (ch : List ℕ) :
    mutStep R0 0 g c ch = .ok ch := by
  rw [mutStep, if_neg]
  show ¬(R0.unif g c 1 < 0)
  norm_num [R0]

theorem makeChild_eval_pair (cities : List (ℝ × ℝ)) (r : List ℕ) (g c : ℕ) :
    makeChild R0 cities 1 0 0 [r, r] g c = .ok r := by
  simp only [makeChild, ts_eval_pair, crossStep_skip, mutStep_skip]

theorem mutStep_fail (g c : ℕ) :
    mutStep R0 1 g c [0] = .error .sampleTooLarge := by
  rw [mutStep, if_pos (show R0.unif g c 1 < 1 by norm_num [R0]),
    if_neg (show ¬(2 ≤ ([0] : List ℕ).length) by simp)]

theorem makeChild_fail (g c : ℕ) :
    makeChild R0 cities1 1 0 1 [[0], [0]] g c = .error .sampleTooLarge := by
  simp only [makeChild, ts_eval_pair, crossStep_skip, mutStep_fail]

/-- Concrete run A: `pop_size = 1` (an invalid configuration), one city, one
generation, elitism on — the algorithm runs to completion and returns
normally. -/
theorem gaRunA : genetic_algorithm R0 cities1 1 1 1 0 0 true
    = .ok (some [0], ((total_distance [0] cities1 : ℝ) : EReal),
        [((total_distance [0] cities1 : ℝ) : EReal)]) := by
  have hinit : init_population R0 1 cities1.length = [[0]] := by
    have h : cities1.length = 1 := by simp [cities1]
    rw [h]
    rfl
  have hgen : gaGen R0 cities1 1 1 0 0 true 0 [[0]] none ⊤
      = .ok ([[0]], some [0], ((total_distance [0] cities1 : ℝ) : EReal)) := by
    simp only [gaGen, if_true, sortPop_singleton]
    have hbc : buildChildren R0 cities1 1 0 0 [[0]] 0 (1 - 1) 0 = .ok [] := rfl
    simp only [hbc]
    rw [if_pos (EReal.coe_lt_top _), if_pos (EReal.coe_lt_top _)]
  show gaLoop R0 cities1 1 1 0 0 true (0 + 1) 0
      (init_population R0 1 cities1.length) none ⊤ [] = _
  rw [hinit]
  simp only [gaLoop, hgen]
  rfl

/-- Concrete run B: a fully valid configuration except `elitism = False` —
the run completes but returns `best_route = None`, `best_distance = inf` and
a history consisting of `inf`. -/
theorem gaRunB : genetic_algorithm R0 cities2 2 1 1 0 0 false
    = .ok (none, (⊤ : EReal), [(⊤ : EReal)]) := by
  have hinit : init_population R0 2 cities2.length = [[0, 1], [0, 1]] := by
    have h : cities2.length = 2 := by simp [cities2]
    rw [h]
    rfl
  have hbc : buildChildren R0 cities2 1 0 0 [[0, 1], [0, 1]] 0 (0 + 1 + 1) 0
      = .ok [[0, 1], [0, 1]] := by
    simp only [buildChildren, makeChild_eval_pair]
  have hgen : gaGen R0 cities2 2 1 0 0 false 0 [[0, 1], [0, 1]] none ⊤
      = .ok ([[0, 1], [0, 1]], none, ⊤) := by
    rw [gaGen, if_neg (by simp)]
    have h2 : (2 : ℕ) = 0 + 1 + 1 := rfl
    rw [h2, hbc]
  show gaLoop R0 cities2 2 1 0 0 false (0 + 1) 0
      (init_population R0 2 cities2.length) none ⊤ [] = _
  rw [hinit]
  simp only [gaLoop, hgen]
  rfl

/-- Concrete run C: a fully valid configuration with elitism — returns the
route `[0, 1]`, its own total distance, and a one-entry history. -/
theorem gaRunC : genetic_algorithm R0 cities2 2 1 1 0 0 true
    = .ok (some [0, 1], ((total_distance [0, 1] cities2 : ℝ) : EReal),
        [((total_distance [0, 1] cities2 : ℝ) : EReal)]) := by
  have hinit : init_population R0 2 cities2.length = [[0, 1], [0, 1]] := by
    have h : cities2.length = 2 := by simp [cities2]
    rw [h]
    rfl
  have hbc : buildChildren R0 cities2 1 0 0 [[0, 1], [0, 1]] 0 (2 - 1) 0
      = .ok [[0, 1]] := by
    show buildChildren R0 cities2 1 0 0 [[0, 1], [0, 1]] 0 (0 + 1) 0 = .ok [[0, 1]]
    simp only [buildChildren, makeChild_eval_pair]
  have hgen : gaGen R0 cities2 2 1 0 0 true 0 [[0, 1], [0, 1]] none ⊤
      = .ok ([[0, 1], [0, 1]], some [0, 1],
          ((total_distance [0, 1] cities2 : ℝ) : EReal)) := by
    simp only [gaGen, if_true, sortPop_pair_same]
    simp only [hbc]
    rw [if_pos (EReal.coe_lt_top _), if_pos (EReal.coe_lt_top _)]
  show gaLoop R0 cities2 2 1 0 0 true (0 + 1) 0
      (init_population R0 2 cities2.length) none ⊤ [] = _
  rw [hinit]
  simp only [gaLoop, hgen]
  rfl

/-- Concrete run D: a single city (`N = 1`) with `mutation_rate = 1` and
elitism — the first mutation calls `random.sample(range(1), 2)`, which
raises, so the whole run fails with an exception. -/
theorem gaRunD : genetic_algorithm R0 cities1 2 1 1 0 1 true
    = .error .sampleTooLarge := by
  have hinit : init_population R0 2 cities1.length = [[0], [0]] := by
    have h : cities1.length = 1 := by simp [cities1]
    rw [h]
    rfl
  have hbc : buildChildren R0 cities1 1 0 1 [[0], [0]] 0 (2 - 1) 0
      = .error .sampleTooLarge := by
    show buildChildren R0 cities1 1 0 1 [[0], [0]] 0 (0 + 1) 0 = _
    simp only [buildChildren, makeChild_fail]
  have hgen : gaGen R0 cities1 2 1 0 1 true 0 [[0], [0]] none ⊤
      = .error .sampleTooLarge := by
    simp only [gaGen, if_true, sortPop_pair_same]
    simp only [hbc]
  show gaLoop R0 cities1 2 1 0 1 true (0 + 1) 0
      (init_population R0 2 cities1.length) none ⊤ [] = _
  rw [hinit]
  simp only [gaLoop, hgen]

/-! ### Evaluating `total_distance` on concrete collinear cities -/

theorem dist_y (y1 y2 : ℝ) : distance (0, y1) (0, y2) = |y1 - y2| := by
  rw [distance]
  norm_num
  exact Real.sqrt_sq_eq_abs _

theorem dist_y_le (y1 y2 : ℝ) (h : y1 ≤ y2) : distance (0, y1) (0, y2) = y2 - y1 := by
  rw [dist_y, abs_sub_comm]
  exact abs_of_nonneg (by linarith)

theorem dist_y_ge (y1 y2 : ℝ) (h : y2 ≤ y1) : distance (0, y1) (0, y2) = y1 - y2 := by
  rw [dist_y]
  exact abs_of_nonneg (by linarith)

theorem td_single : total_distance [0] cities1 = 0 := by
  rw [total_distance]
  simp [cities1, distance, Real.sqrt_zero]

theorem td01 : total_distance [0, 1] cities2 = 2 := by
  rw [total_distance]
  simp [-Prod.mk_zero_zero, cities2, Finset.sum_range_succ,
    dist_y_le 0 1 (by norm_num), dist_y_ge 1 0 (by norm_num)]
  norm_num

theorem td10 : total_distance [1, 0] cities2 = 2 := by
  rw [total_distance]
  simp [-Prod.mk_zero_zero, cities2, Finset.sum_range_succ,
    dist_y_le 0 1 (by norm_num), dist_y_ge 1 0 (by norm_num)]
  norm_num

noncomputable def cities4 : List (ℝ × ℝ) := [(0, 0), (0, 1), (0, 2), (0, 3)]

theorem tdA : total_distance [0, 1, 2, 3] cities4 = 6 := by
  rw [total_distance]
  simp [-Prod.mk_zero_zero, cities4, Finset.sum_range_succ,
    dist_y_le 0 1 (by norm_num), dist_y_le 1 2 (by norm_num),
    dist_y_le 2 3 (by norm_num), dist_y_ge 3 0 (by norm_num)]
  norm_num

theorem tdB : total_distance [0, 2, 1, 3] cities4 = 8 := by
  rw [total_distance]
  simp [-Prod.mk_zero_zero, cities4, Finset.sum_range_succ,
    dist_y_le 0 2 (by norm_num), dist_y_ge 2 1 (by norm_num),
    dist_y_le 1 3 (by norm_num), dist_y_ge 3 0 (by norm_num)]
  norm_num

/-! ### Behaviour on an oversized tournament -/

theorem tournament_selection_fail (R : RandModel) (population : List (List ℕ))
    (cities : List (ℝ × ℝ)) (tournament_size g c w : ℕ)
    (h : population.length < tournament_size) :
    tournament_selection R population cities tournament_size g c w
      = .error .sampleTooLarge := by
  rw [tournament_selection, if_neg (by omega)]

theorem makeChild_fail_t (R : RandModel) (cities : List (ℝ × ℝ))
    (tournament_size : ℕ) (crossover_rate mutation_rate : ℝ)
    (pop : List (List ℕ)) (g c : ℕ) (h : pop.length < tournament_size) :
    makeChild R cities tournament_size crossover_rate mutation_rate pop g c
      = .error .sampleTooLarge := by
  simp only [makeChild, tournament_selection_fail R pop cities tournament_size g c 0 h]

theorem buildChildren_fail_t (R : RandModel) (cities : List (ℝ × ℝ))
    (tournament_size : ℕ) (crossover_rate mutation_rate : ℝ)
    (pop : List (List ℕ)) (g k c : ℕ) (h : pop.length < tournament_size) :
    buildChildren R cities tournament_size crossover_rate mutation_rate pop g
      (k + 1) c = .error .sampleTooLarge := by
  simp only [buildChildren,
    makeChild_fail_t R cities tournament_size crossover_rate mutation_rate pop g c h]

theorem gaGen_fail_t (R : RandModel) (cities : List (ℝ × ℝ))
    (pop_size tournament_size : ℕ) (crossover_rate mutation_rate : ℝ)
    (elitism : Bool) (g : ℕ) (pop : List (List ℕ)) (br : Option (List ℕ)) (bd : EReal)
    (hlen : pop.length = pop_size) (hps : 2 ≤ pop_size)
    (hpt : pop_size < tournament_size) :
    gaGen R cities pop_size tournament_size crossover_rate mutation_rate elitism g
      pop br bd = .error .sampleTooLarge := by
  rw [gaGen]
  cases elitism with
  | false =>
    rw [if_neg (by simp)]
    obtain ⟨m, hm⟩ : ∃ m, pop_size = m + 1 := ⟨pop_size - 1, by omega⟩
    rw [hm]
    rw [buildChildren_fail_t R cities tournament_size crossover_rate mutation_rate
      pop g m 0 (by omega)]
  | true =>
    rw [if_pos rfl]
    cases hs : sortPop cities pop with
    | nil =>
      exfalso
      have := (sortPop_perm cities pop).length_eq
      rw [hs, hlen] at this
      simp at this
      omega
    | cons best rest =>
      simp only
      have hlen2 : (best :: rest).length = pop_size := by
        rw [← hs, (sortPop_perm cities pop).length_eq, hlen]
      obtain ⟨m, hm⟩ : ∃ m, pop_size - 1 = m + 1 := ⟨pop_size - 2, by omega⟩
      rw [hm]
      rw [buildChildren_fail_t R cities tournament_size crossover_rate mutation_rate
        (best :: rest) g m 0 (by omega)]

theorem ts_two_eval : tournament_selection R0 [[0, 1], [1, 0]] cities2 2 0 0 0
    = .ok [0, 1] := by
  rw [tournament_selection, if_pos (by simp)]
  have hs : R0.sample 0 0 0 2 [[0, 1], [1, 0]] = [[0, 1], [1, 0]] := rfl
  rw [hs]
  have hsort : sortPop cities2 [[0, 1], [1, 0]] = [[0, 1], [1, 0]] := by
    simp only [sortPop, List.insertionSort, List.orderedInsert]
    rw [if_pos]
    show total_distance [0, 1] cities2 ≤ total_distance [1, 0] cities2
    rw [td01, td10]
  rw [hsort]
  rfl

theorem heap_eval : tournament_selection_heap ⟨[[0]]⟩ cities1 [0]
    = (⟨[[0], [0]]⟩, some 1) := by
  simp only [tournament_selection_heap, List.insertionSort, List.orderedInsert]
  rfl

/-- `true` iff a `genetic_algorithm` run returned normally. -/
def gaOk (x : Except GAErr (Option (List ℕ) × EReal × List EReal)) : Bool :=
  match x with
  | .ok _ => true
  | .error _ => false

/-! ### The claims -/

/-- Claim C1: for every number of cities `N ≥ 1`, every route produced by
`init_population`, by `order_crossover` from two parent permutations of
`{0..N-1}` (with its sorted cut points), by `swap_mutation` applied to a
permutation (with its two distinct indices), or by the elitism copy in
`genetic_algorithm` (the head of the distance-sorted population), is a
permutation of `{0..N-1}`: each city index appears exactly once. -/
theorem claim_C1_permutation_invariant :
    (∀ (R : RandModel), R.Valid → ∀ (pop_size num_cities : ℕ),
      ∀ ind ∈ init_population R pop_size num_cities, ind ~ List.range num_cities)
    ∧ (∀ (p1 p2 : List ℕ) (n start stop : ℕ),
        p1 ~ List.range n → p2 ~ List.range n → start < stop → stop < n →
        ∀ c, order_crossover p1 p2 start stop = some c → c ~ List.range n)
    ∧ (∀ (ind : List ℕ) (n a b : ℕ),
        ind ~ List.range n → a < n → b < n → a ≠ b →
        swap_mutation ind a b ~ List.range n)
    ∧ (∀ (cities : List (ℝ × ℝ)) (pop : List (List ℕ)) (n : ℕ)
        (best : List ℕ) (rest : List (List ℕ)),
        sortPop cities pop = best :: rest → (∀ r ∈ pop, r ~ List.range n) →
        best ~ List.range n) := by
  refine ⟨?_, ?_, ?_, ?_⟩
  · intro R hR ps nc ind hind
    rw [init_population] at hind
    obtain ⟨i, _, hi⟩ := List.mem_map.mp hind
    rw [← hi]
    exact hR.shuffle_perm i _
  · intro p1 p2 n start stop h1 h2 hss hsn c hc
    exact order_crossover_result_perm p1 p2 n start stop h1 h2 hss hsn c hc
  · intro ind n a b hperm ha hb hab
    have hlen : ind.length = n := hperm.length_eq.trans (List.length_range n)
    exact (swap_mutation_perm ind a b (by omega) (by omega) hab).trans hperm
  · intro cities pop n best rest hsort hpop
    refine hpop best ((sortPop_perm cities pop).mem_iff.mp ?_)
    rw [hsort]
    exact List.mem_cons_self best rest

/-- Witness for C1 at concrete inputs: an individual of a concrete initial
population, the crossover child `[4,1,2,3,0]` of the spec's example, a
concrete swap mutation, and the elitism copy from a concrete population. -/
theorem claim_C1_witness :
    ([0, 1, 2] ~ List.range 3)
    ∧ ([4, 1, 2, 3, 0] ~ List.range 5)
    ∧ (swap_mutation [2, 0, 1] 0 2 ~ List.range 3)
    ∧ ([0] ~ List.range 1) := by
  refine ⟨?_, ?_, ?_, ?_⟩
  · exact claim_C1_permutation_invariant.1 R0 R0_valid 2 3 [0, 1, 2] (by decide)
  · exact claim_C1_permutation_invariant.2.1 [0, 1, 2, 3, 4] [4, 3, 2, 1, 0] 5 1 3
      (by decide) (by decide) (by decide) (by decide) [4, 1, 2, 3, 0] (by decide)
  · exact claim_C1_permutation_invariant.2.2.1 [2, 0, 1] 3 0 2
      (by decide) (by decide) (by decide) (by decide)
  · exact claim_C1_permutation_invariant.2.2.2 cities1 [[0]] 1 [0] []
      (sortPop_singleton cities1 [0])
      (by
        intro r hr
        rw [List.mem_singleton] at hr
        rw [hr]
        decide)

/-- Claim C2: for any two parents that are permutations of `{0..N-1}`
(`N ≥ 2`) and distinct cut points `start < end < N`, the child of
`order_crossover` keeps `parent1[start..end]` verbatim, and the remaining
positions, visited circularly from `(end+1) mod N`, hold the cities of
`parent2` in its circular order from `(end+1) mod N`, skipping cities
already placed; in particular the spec's worked example yields the child
`[4,1,2,3,0]`. -/
theorem claim_C2_crossover_inheritance :
    (∀ (p1 p2 : List ℕ) (n start stop : ℕ),
      p1 ~ List.range n → p2 ~ List.range n → start < stop → stop < n →
      ∃ c, order_crossover p1 p2 start stop = some c
        ∧ (c.drop start).take (stop + 1 - start)
            = (p1.drop start).take (stop + 1 - start)
        ∧ c.rotate ((stop + 1) % n)
            = (p2.rotate ((stop + 1) % n)).filter
                (fun v => decide (v ∉ (p1.drop start).take (stop + 1 - start)))
              ++ (p1.drop start).take (stop + 1 - start))
    ∧ order_crossover [0, 1, 2, 3, 4] [4, 3, 2, 1, 0] 1 3 = some [4, 1, 2, 3, 0] := by
  constructor
  · intro p1 p2 n start stop h1 h2 hss hsn
    have hox := order_crossover_eq p1 p2 n start stop h1 h2 hss hsn
    exact ⟨_, hox, order_crossover_slice p1 p2 n start stop h1 h2 hss hsn _ hox,
      order_crossover_rotate p1 p2 n start stop h1 h2 hss hsn _ hox⟩
  · decide

/-- Witness for C2: the general part applied to concrete parents
`[0,1,2]`, `[2,1,0]` with cut points `0 < 1 < 3`. -/
theorem claim_C2_witness : (order_crossover [0, 1, 2] [2, 1, 0] 0 1).isSome = true := by
  obtain ⟨c, hc, _, _⟩ := claim_C2_crossover_inheritance.1 [0, 1, 2] [2, 1, 0] 3 0 1
    (by decide) (by decide) (by decide) (by decide)
  rw [hc]
  rfl

/-- Claim C3 counterexample: `pop_size = 1` violates the precondition
`pop_size ≥ 2`, yet `genetic_algorithm` is not rejected before (or during)
the generation loop — it runs to completion and returns a normal result,
refuting "rejects the configuration before the generation loop starts". -/
theorem claim_C3_counterexample :
    (1 : ℕ) < 2
    ∧ genetic_algorithm R0 cities1 1 1 1 0 0 true
      = .ok (some [0], ((total_distance [0] cities1 : ℝ) : EReal),
          [((total_distance [0] cities1 : ℝ) : EReal)]) :=
  ⟨by norm_num, gaRunA⟩

/-- Claim C3 (amended): `genetic_algorithm` performs no configuration
validation before the generation loop.  A configuration with
`tournament_size > pop_size` (and `pop_size ≥ 2`, so that at least one child
is built) fails only when the first tournament of the first generation calls
`random.sample` — a mid-loop exception, not an up-front rejection — while
configurations with `pop_size < 2` or a single city are not rejected at
all. -/
theorem claim_C3_amended :
    ∀ (R : RandModel) (cities : List (ℝ × ℝ))
      (pop_size num_generations tournament_size : ℕ)
      (crossover_rate mutation_rate : ℝ) (elitism : Bool),
    2 ≤ pop_size → pop_size < tournament_size → 1 ≤ num_generations →
    genetic_algorithm R cities pop_size num_generations tournament_size
      crossover_rate mutation_rate elitism = .error .sampleTooLarge := by
  intro R cities ps gens t cr mr el hps hpt hg
  obtain ⟨k, rfl⟩ : ∃ k, gens = k + 1 := ⟨gens - 1, by omega⟩
  have hlen : (init_population R ps cities.length).length = ps := by
    rw [init_population, List.length_map, List.length_range]
  show gaLoop R cities ps t cr mr el (k + 1) 0 (init_population R ps cities.length)
      none ⊤ [] = .error .sampleTooLarge
  simp only [gaLoop, gaGen_fail_t R cities ps t cr mr el 0
    (init_population R ps cities.length) none ⊤ hlen hps hpt]

/-- Witness for C3's amended theorem: `tournament_size = 3 > pop_size = 2`
fails with the sampling exception. -/
theorem claim_C3_amended_witness :
    genetic_algorithm R0 cities2 2 1 3 0 0 true = .error .sampleTooLarge :=
  claim_C3_amended R0 cities2 2 1 3 0 0 true (by norm_num) (by norm_num) (by norm_num)

/-- Claim C4 counterexample: two valid inputs in the claim's sense where
`genetic_algorithm` does not return a best-route permutation: with
`elitism = False` it returns `best_route = None` with `best_distance = inf`
and an `inf` history entry, and with a single city and `mutation_rate = 1`
the first mutation raises, so nothing is returned at all. -/
theorem claim_C4_counterexample :
    genetic_algorithm R0 cities2 2 1 1 0 0 false
      = .ok (none, (⊤ : EReal), [(⊤ : EReal)])
    ∧ genetic_algorithm R0 cities1 2 1 1 0 1 true = .error .sampleTooLarge :=
  ⟨gaRunB, gaRunD⟩

/-- Claim C4 (amended): for every input with at least two cities,
`pop_size ≥ 2`, `num_generations ≥ 1`, `1 ≤ tournament_size ≤ pop_size`,
rates in `[0,1]`, elitism enabled, and every valid random model,
`genetic_algorithm` returns a best route that is a permutation of the city
indices, its total distance equal to `total_distance` of that route, and a
history of finite reals of length exactly `num_generations`. -/
theorem claim_C4_amended :
    ∀ (R : RandModel) (cities : List (ℝ × ℝ))
      (pop_size num_generations tournament_size : ℕ)
      (crossover_rate mutation_rate : ℝ),
    R.Valid → 2 ≤ cities.length → 2 ≤ pop_size → 1 ≤ num_generations →
    1 ≤ tournament_size → tournament_size ≤ pop_size →
    0 ≤ crossover_rate → crossover_rate ≤ 1 →
    0 ≤ mutation_rate → mutation_rate ≤ 1 →
    ∃ (r : List ℕ) (bd : EReal) (hist : List EReal),
      genetic_algorithm R cities pop_size num_generations tournament_size
          crossover_rate mutation_rate true = .ok (some r, bd, hist)
      ∧ r ~ List.range cities.length
      ∧ bd = ((total_distance r cities : ℝ) : EReal)
      ∧ hist.length = num_generations
      ∧ (∀ x ∈ hist, ∃ y : ℝ, x = (y : EReal)) := by
  intro R cities ps gens t cr mr hR hN hps hg ht1 htp _ _ _ _
  obtain ⟨br', bd', tail, hrun, htl, hbok, _, hsome, hreal⟩ :=
    gaLoop_ok R hR cities ps t cr mr hN hps ht1 htp gens 0
      (init_population R ps cities.length) none ⊤ []
      (by rw [init_population, List.length_map, List.length_range])
      (by
        intro r hr
        rw [init_population] at hr
        obtain ⟨i, _, hi⟩ := List.mem_map.mp hr
        rw [← hi]
        exact hR.shuffle_perm i _)
      (Or.inl ⟨rfl, rfl⟩)
  have hs := hsome (by omega)
  rcases hbok with ⟨hnone, _⟩ | ⟨r, hbr, hrperm, hbd⟩
  · rw [hnone] at hs
    simp at hs
  · refine ⟨r, bd', tail, ?_, hrperm, hbd, htl, hreal⟩
    rw [hbr, List.nil_append] at hrun
    exact hrun

/-- Witness for C4's amended theorem: a valid two-city configuration with
elitism returns normally. -/
theorem claim_C4_amended_witness :
    gaOk (genetic_algorithm R0 cities2 2 2 2 (1 / 2) (1 / 2) true) = true := by
  obtain ⟨r, bd, hist, hrun, _, _, _, _⟩ :=
    claim_C4_amended R0 cities2 2 2 2 (1 / 2) (1 / 2) R0_valid
      (by simp [cities2]) (by norm_num) (by norm_num) (by norm_num) (by norm_num)
      (by norm_num) (by norm_num) (by norm_num) (by norm_num)
  rw [hrun]
  rfl

/-- Claim C5: with elitism enabled, for every random model, the recorded
best distance never increases across generations — consecutive history
entries are non-increasing — and the final best-distance record bounds
every history entry from below. -/
theorem claim_C5_elitism_monotone :
    ∀ (R : RandModel) (cities : List (ℝ × ℝ))
      (pop_size num_generations tournament_size : ℕ)
      (crossover_rate mutation_rate : ℝ)
      (br : Option (List ℕ)) (bd : EReal) (hist : List EReal),
    genetic_algorithm R cities pop_size num_generations tournament_size
        crossover_rate mutation_rate true = .ok (br, bd, hist) →
    List.Chain' (fun a b => b ≤ a) hist ∧ (∀ x ∈ hist, bd ≤ x) := by
  intro R cities ps gens t cr mr br bd hist h
  obtain ⟨tail, htl, _, hchain, _, hall⟩ :=
    gaLoop_hist R cities ps t cr mr true gens 0
      (init_population R ps cities.length) none ⊤ [] br bd hist h
  rw [List.nil_append] at htl
  subst htl
  exact ⟨hchain.tail, hall⟩

/-- Witness for C5 at a concrete completed run (run C). -/
theorem claim_C5_witness :
    List.Chain' (fun a b => b ≤ a)
      [((total_distance [0, 1] cities2 : ℝ) : EReal)] :=
  (claim_C5_elitism_monotone R0 cities2 2 1 1 0 0 (some [0, 1])
    ((total_distance [0, 1] cities2 : ℝ) : EReal)
    [((total_distance [0, 1] cities2 : ℝ) : EReal)] gaRunC).1

/-- Claim C6: `fitness` returns `1 / total_distance` when the distance is
strictly positive and the positive-infinity sentinel when it is exactly `0`
(e.g. a single city); the sentinel compares strictly greater than any
finite fitness value. -/
theorem claim_C6_fitness_sentinel :
    (∀ (route : List ℕ) (cities : List (ℝ × ℝ)), 0 < total_distance route cities →
      fitness route cities = ((1 / total_distance route cities : ℝ) : EReal))
    ∧ (∀ (route : List ℕ) (cities : List (ℝ × ℝ)), total_distance route cities = 0 →
      fitness route cities = ⊤)
    ∧ (∀ (rz : List ℕ) (cz : List (ℝ × ℝ)) (rp : List ℕ) (cp : List (ℝ × ℝ)),
      total_distance rz cz = 0 → 0 < total_distance rp cp →
      fitness rp cp < fitness rz cz) := by
  have h1 : ∀ (route : List ℕ) (cities : List (ℝ × ℝ)),
      0 < total_distance route cities →
      fitness route cities = ((1 / total_distance route cities : ℝ) : EReal) := by
    intro route cities h
    rw [fitness, if_pos h]
  have h2 : ∀ (route : List ℕ) (cities : List (ℝ × ℝ)),
      total_distance route cities = 0 → fitness route cities = ⊤ := by
    intro route cities h
    rw [fitness, if_neg (by rw [h]; exact lt_irrefl 0)]
  refine ⟨h1, h2, ?_⟩
  intro rz cz rp cp hz hp
  rw [h1 rp cp hp, h2 rz cz hz]
  exact EReal.coe_lt_top _

/-- Witness for C6: one city at the origin gives total distance `0` and the
sentinel; the two-city tour has positive distance and finite fitness below
the sentinel. -/
theorem claim_C6_witness :
    fitness [0] cities1 = ⊤ ∧ fitness [0, 1] cities2 < fitness [0] cities1 := by
  refine ⟨claim_C6_fitness_sentinel.2.1 [0] cities1 td_single, ?_⟩
  exact claim_C6_fitness_sentinel.2.2 [0] cities1 [0, 1] cities2 td_single
    (by rw [td01]; norm_num)

/-- Claim C7: for every oracle, population, cities and tournament size, the
individual returned by `tournament_selection` has `total_distance` at most
that of every individual in the tournament subset it was sampled from. -/
theorem claim_C7_tournament_min :
    ∀ (R : RandModel) (population : List (List ℕ)) (cities : List (ℝ × ℝ))
      (tournament_size g c w : ℕ) (r : List ℕ),
    tournament_selection R population cities tournament_size g c w = .ok r →
    ∀ x ∈ R.sample g c w tournament_size population,
      total_distance r cities ≤ total_distance x cities :=
  fun R population cities tournament_size g c w r h =>
    tournament_selection_min R population cities tournament_size g c w r h

/-- Witness for C7: a two-route tournament over the two-city instance; the
selected route `[0,1]` is no longer than the other tournament member. -/
theorem claim_C7_witness :
    total_distance [0, 1] cities2 ≤ total_distance [1, 0] cities2 := by
  have hmem : [1, 0] ∈ R0.sample 0 0 0 2 [[0, 1], [1, 0]] := by
    have hs : R0.sample 0 0 0 2 [[0, 1], [1, 0]] = [[0, 1], [1, 0]] := rfl
    rw [hs]
    simp
  exact claim_C7_tournament_min R0 [[0, 1], [1, 0]] cities2 2 0 0 0 [0, 1]
    ts_two_eval [1, 0] hmem

/-- Claim C8: for two routes with strictly positive distances over the same
cities, smaller distance is equivalent to larger fitness — ranking by
ascending distance and by descending fitness never disagree away from the
zero-distance sentinel. -/
theorem claim_C8_fitness_distance_ordering :
    ∀ (a b : List ℕ) (cities : List (ℝ × ℝ)),
    0 < total_distance a cities → 0 < total_distance b cities →
    (total_distance a cities < total_distance b cities
      ↔ fitness b cities < fitness a cities) := by
  intro a b cities ha hb
  rw [fitness, fitness, if_pos ha, if_pos hb, EReal.coe_lt_coe_iff]
  exact (one_div_lt_one_div hb ha).symm

/-- Witness for C8: the collinear four-city instance with tours of
distances `6` and `8`. -/
theorem claim_C8_witness :
    total_distance [0, 1, 2, 3] cities4 < total_distance [0, 2, 1, 3] cities4
      ↔ fitness [0, 2, 1, 3] cities4 < fitness [0, 1, 2, 3] cities4 :=
  claim_C8_fitness_distance_ordering [0, 1, 2, 3] [0, 2, 1, 3] cities4
    (by rw [tdA]; norm_num) (by rw [tdB]; norm_num)

/-- Claim C9 (object-heap view): `tournament_selection` returns a freshly
allocated copy whose address differs from every address stored in the
population, leaves the contents of every population object unchanged, and
the copy's contents equal those of one of the sampled individuals. -/
theorem claim_C9_selection_copy_frame :
    ∀ (st : PyState) (cities : List (ℝ × ℝ)) (population sampled : List ℕ)
      (st' : PyState) (addr : ℕ),
    (∀ a ∈ population, a < st.heap.length) →
    tournament_selection_heap st cities sampled = (st', some addr) →
    (∀ a ∈ population, a ≠ addr)
    ∧ (∀ a ∈ population, st'.heap.getD a [] = st.heap.getD a [])
    ∧ (∃ b ∈ sampled, st'.heap.getD addr [] = st.heap.getD b []) := by
  intro st cities population sampled st' addr hbound h
  rw [tournament_selection_heap] at h
  cases hs : @List.insertionSort _ (addrLe st cities) (Classical.decRel _) sampled with
  | nil =>
    rw [hs] at h
    exact absurd h (by simp)
  | cons best tail =>
    rw [hs] at h
    simp only [Prod.mk.injEq, Option.some.injEq] at h
    obtain ⟨hst, haddr⟩ := h
    subst haddr
    refine ⟨?_, ?_, ?_⟩
    · intro a ha
      have := hbound a ha
      omega
    · intro a ha
      rw [← hst]
      show (st.heap ++ [st.heap.getD best []]).getD a [] = st.heap.getD a []
      rw [List.getD_eq_getElem?_getD, List.getElem?_append_left (hbound a ha),
        ← List.getD_eq_getElem?_getD]
    · refine ⟨best, ?_, ?_⟩
      · have hmem : best ∈ best :: tail := List.mem_cons_self _ _
        rw [← hs] at hmem
        exact (@List.perm_insertionSort _ (addrLe st cities)
          (Classical.decRel _) sampled).mem_iff.mp hmem
      · rw [← hst]
        show (st.heap ++ [st.heap.getD best []]).getD st.heap.length []
          = st.heap.getD best []
        rw [List.getD_eq_getElem?_getD, List.getElem?_append_right (le_refl _)]
        simp

/-- Witness for C9: a one-object heap; the copy gets the fresh address `1`,
the population's object at address `0` is unchanged. -/
theorem claim_C9_witness :
    (PyState.mk [[0], [0]]).heap.getD 0 [] = (PyState.mk [[0]]).heap.getD 0 []
    ∧ (0 : ℕ) ≠ 1 := by
  obtain ⟨h1, h2, _⟩ := claim_C9_selection_copy_frame ⟨[[0]]⟩ cities1 [0] [0]
    ⟨[[0], [0]]⟩ 1
    (by
      intro a ha
      rw [List.mem_singleton] at ha
      rw [ha]
      norm_num)
    heap_eval
  exact ⟨h2 0 (List.mem_singleton.mpr rfl), h1 0 (List.mem_singleton.mpr rfl)⟩

/-- Claim C10: for parents that are permutations of the same index set
`{0..N-1}` with `N ≥ 2` and distinct cut points, the `while None in child`
fill loop of `order_crossover` terminates, so the operator is total under
this precondition (the fueled loop returns `some`). -/
theorem claim_C10_fill_loop_terminates :
    ∀ (p1 p2 : List ℕ) (n start stop : ℕ),
    p1 ~ List.range n → p2 ~ List.range n → start < stop → stop < n →
    (order_crossover p1 p2 start stop).isSome = true := by
  intro p1 p2 n start stop h1 h2 hss hsn
  rw [order_crossover_eq p1 p2 n start stop h1 h2 hss hsn]
  rfl

/-- Witness for C10 at concrete parents `[1,0]`, `[0,1]` with cut points
`0 < 1 < 2`. -/
theorem claim_C10_witness : (order_crossover [1, 0] [0, 1] 0 1).isSome = true :=
  claim_C10_fill_loop_terminates [1, 0] [0, 1] 2 0 1
    (by decide) (by decide) (by decide) (by decide)

end Salesman
